import Mathlib

/-!
# Verification of the campus path-planner (`src/routes/planner.py`)

A shallow embedding of the planner's pure core: the edge cost model
(`_edge_travel_time`), the adjacency builder (`_build_adjacency`), the
single-pair Dijkstra engine (`_dijkstra`), the building-to-building entrance
cross-product search (`_shortest_path_between_buildings`) and the route
stitcher (`compute_route`).

Conventions of the embedding:
* Python `float` values are modelled as exact rationals (`ℚ`); the claims
  under verification are algorithmic, not about rounding.
* Python `dict`s are modelled as association lists (`List (String × α)`)
  with first-match lookup; updates keep at most one binding per key, which
  matches `dict` observable get/set behaviour.
* `heapq` is modelled as a list from which `popMin` extracts a minimum-key
  entry; which among equal-priority entries is popped is exactly the
  freedom the spec leaves unspecified.
* The two `while` loops of `_dijkstra` are given explicit fuel; the fuel
  chosen for the main loop is proved sufficient below, and the path
  reconstruction fuel is proved sufficient from the acyclicity of the
  predecessor map.
-/

namespace Planner

/-! ## Association-list dictionaries (model of Python `dict`) -/

/-- `d.get(k)` / `k in d`: first-match lookup. -/
def dget {α : Type} (l : List (String × α)) (k : String) : Option α :=
  (l.find? (fun p => p.1 == k)).map (·.2)

/-- `d[k] = v`: bind `k` to `v`, dropping any previous binding. -/
def dset {α : Type} (l : List (String × α)) (k : String) (v : α) :
    List (String × α) :=
  (k, v) :: l.filter (fun p => !(p.1 == k))

/-- Apply `f` to the value bound at `k` (no-op on absent keys); model of
in-place mutation such as `adjacency[k].append(x)`. -/
def dmodify {α : Type} (l : List (String × α)) (k : String) (f : α → α) :
    List (String × α) :=
  l.map (fun p => if p.1 = k then (p.1, f p.2) else p)

@[simp] theorem dget_nil {α : Type} (k : String) : dget ([] : List (String × α)) k = none := rfl

theorem dget_cons {α : Type} (p : String × α) (l : List (String × α)) (k : String) :
    dget (p :: l) k = if p.1 = k then some p.2 else dget l k := by
  by_cases h : p.1 = k
  · rw [dget, List.find?_cons_of_pos _ (by simpa using h), if_pos h]
    rfl
  · rw [dget, List.find?_cons_of_neg _ (by simpa using h), if_neg h]
    rfl

@[simp] theorem dget_dset_self {α : Type} (l : List (String × α)) (k : String) (v : α) :
    dget (dset l k v) k = some v := by
  simp [dset, dget_cons]

theorem dget_filter_ne {α : Type} (l : List (String × α)) (k k' : String)
    (h : k ≠ k') : dget (l.filter (fun p => !(p.1 == k))) k' = dget l k' := by
  induction l with
  | nil => rfl
  | cons p t ih =>
    rw [List.filter_cons]
    by_cases hp : p.1 = k
    · rw [show (!(p.1 == k)) = false by simp [hp], if_neg Bool.false_ne_true, ih,
        dget_cons, if_neg (fun hh => h (hp ▸ hh))]
    · rw [show (!(p.1 == k)) = true by simp [hp], if_pos rfl, dget_cons, dget_cons, ih]

theorem dget_dset_ne {α : Type} (l : List (String × α)) (k k' : String) (v : α)
    (h : k ≠ k') : dget (dset l k v) k' = dget l k' := by
  rw [dset, dget_cons, if_neg h, dget_filter_ne _ _ _ h]

theorem dget_dmodify {α : Type} (l : List (String × α)) (k k' : String) (f : α → α) :
    dget (dmodify l k f) k' =
      if k' = k then (dget l k').map f else dget l k' := by
  induction l with
  | nil =>
    simp only [dmodify, List.map_nil, dget_nil, Option.map_none']
    split <;> rfl
  | cons p t ih =>
    simp only [dmodify, List.map_cons] at ih ⊢
    by_cases hpk : p.1 = k
    · rw [if_pos hpk, dget_cons, dget_cons]
      simp only
      by_cases hk' : k' = k
      · rw [if_pos hk', if_pos (hpk.trans hk'.symm), if_pos (hpk.trans hk'.symm)]
        rfl
      · rw [if_neg hk', if_neg (fun hh : p.1 = k' => hk' ((hpk.symm.trans hh).symm)),
          if_neg (fun hh : p.1 = k' => hk' ((hpk.symm.trans hh).symm)), ih, if_neg hk']
    · rw [if_neg hpk, dget_cons, dget_cons, ih]
      by_cases hpk' : p.1 = k'
      · rw [if_pos hpk', if_pos hpk', if_neg (fun hh : k' = k => hpk (hpk'.trans hh))]
      · rw [if_neg hpk', if_neg hpk']

/-- Keys with a binding. -/
theorem dget_isSome_iff_mem_keys {α : Type} (l : List (String × α)) (k : String) :
    (dget l k).isSome ↔ k ∈ l.map Prod.fst := by
  induction l with
  | nil => simp
  | cons p t ih =>
    rw [dget_cons]
    by_cases h : p.1 = k
    · simp [h]
    · simp only [if_neg h, List.map_cons, List.mem_cons, ih]
      constructor
      · exact Or.inr
      · rintro (h' | h')
        · exact absurd h'.symm h
        · exact h'

theorem dget_eq_some_mem {α : Type} {l : List (String × α)} {k : String} {v : α}
    (h : dget l k = some v) : (k, v) ∈ l := by
  induction l with
  | nil => simp [dget] at h
  | cons p t ih =>
    rw [dget_cons] at h
    by_cases hp : p.1 = k
    · rw [if_pos hp] at h
      obtain ⟨p1, p2⟩ := p
      simp only [Option.some.injEq] at h
      simp only at hp
      subst hp
      subst h
      exact List.mem_cons_self _ _
    · rw [if_neg hp] at h
      exact List.mem_cons_of_mem _ (ih h)

/-! ## Data model (persisted graph JSON, §3 / §6 of the spec) -/

/-- `edge["flags"]`; absent flags read as falsy via `flags.get(...)`. -/
structure Flags where
  blocked : Bool
  stairs : Bool
  steep : Bool
  covered : Bool
deriving DecidableEq, Repr

/-- A walkway node `{id, x, y}`. -/
structure Node where
  id : String
  x : ℚ
  y : ℚ
deriving DecidableEq, Repr

/-- An edge `{id, from, to, length_m, penalty_s?, flags?}`; `penalty_s` is
optional, defaulted by `edge.get("penalty_s", 0)`. -/
structure Edge where
  id : String
  fromId : String
  toId : String
  length_m : ℚ
  penalty_s : Option ℚ
  flags : Flags
deriving DecidableEq, Repr

/-- A building `{id, name, entranceNodeIds}`. -/
structure Building where
  id : String
  name : String
  entranceNodeIds : List String
deriving DecidableEq, Repr

/-- `settings["penalties"]`; each entry read with `.get(key, 0)`. -/
structure Penalties where
  stairs_s : Option ℚ
  steep_s : Option ℚ
  covered_s : Option ℚ
deriving DecidableEq, Repr

/-- `graph["settings"]`. -/
structure Settings where
  walking_speed_mps : ℚ
  penalties : Penalties
deriving DecidableEq, Repr

/-- `graph["overrides"]`. -/
structure Overrides where
  blockedEdgeIds : List String
deriving DecidableEq, Repr

/-- The loaded campus graph (the `image` metadata plays no role in routing). -/
structure Graph where
  nodes : List Node
  edges : List Edge
  buildings : List Building
  settings : Settings
  overrides : Overrides
deriving DecidableEq, Repr

/-- `{x["id"]: x for x in xs}`: id-keyed index, later entries overwriting. -/
def dictOf {α : Type} (key : α → String) (xs : List α) : List (String × α) :=
  xs.foldl (fun d x => dset d (key x) x) []

/-- `_nodes_by_id`. -/
def nodesById (g : Graph) : List (String × Node) := dictOf Node.id g.nodes

/-- `_buildings_by_id`. -/
def buildingsById (g : Graph) : List (String × Building) := dictOf Building.id g.buildings

/-! ## Edge cost model (`_edge_travel_time`, planner.py lines 40–59) -/

/-- `_edge_travel_time(edge, settings, blocked_edge_ids)`. -/
def edgeTravelTime (edge : Edge) (settings : Settings)
    (blocked_edge_ids : List String) : Option ℚ :=
  if edge.flags.blocked then none
  else if edge.id ∈ blocked_edge_ids then none
  else
    let base_time_s := edge.length_m / settings.walking_speed_mps
    let penalty := edge.penalty_s.getD 0
    let penalties := settings.penalties
    let penalty := if edge.flags.stairs then penalty + penalties.stairs_s.getD 0 else penalty
    let penalty := if edge.flags.steep then penalty + penalties.steep_s.getD 0 else penalty
    let penalty := if edge.flags.covered then penalty + penalties.covered_s.getD 0 else penalty
    some (base_time_s + penalty)

/-! ## Adjacency builder (`_build_adjacency`, planner.py lines 62–80) -/

/-- The adjacency type: node id ↦ list of (neighbor id, cost in seconds). -/
abbrev Adjacency := List (String × List (String × ℚ))

/-- Body of the `for edge in graph.get("edges", [])` loop of
`_build_adjacency`: skip unreachable edges and edges with an unknown
endpoint, otherwise append the neighbor relation in both directions. -/
def addEdge (settings : Settings) (blocked_edge_ids : List String)
    (adjacency : Adjacency) (edge : Edge) : Adjacency :=
  match edgeTravelTime edge settings blocked_edge_ids with
  | none => adjacency
  | some travel_time =>
    if (dget adjacency edge.fromId).isSome && (dget adjacency edge.toId).isSome then
      dmodify (dmodify adjacency edge.fromId (fun l => l ++ [(edge.toId, travel_time)]))
        edge.toId (fun l => l ++ [(edge.fromId, travel_time)])
    else adjacency

/-- `_build_adjacency(graph)`: empty neighbor list for every known node id,
then each traversable edge with known endpoints appended in both directions. -/
def buildAdjacency (g : Graph) : Adjacency :=
  g.edges.foldl (addEdge g.settings g.overrides.blockedEdgeIds)
    (g.nodes.foldl (fun adj node => dset adj node.id []) [])

/-! ## Shortest-path engine (`_dijkstra`, planner.py lines 92–123) -/

/-- `adjacency.get(node, [])`. -/
def adjGet (adjacency : Adjacency) (node : String) : List (String × ℚ) :=
  (dget adjacency node).getD []

/-- The minimum-priority entry of a nonempty bag of `(distance, node)` pairs
(model of the `heapq` pop order on the first component; the spec leaves the
choice among equal-priority entries unspecified). -/
def minEntry : (ℚ × String) → List (ℚ × String) → (ℚ × String)
  | e, [] => e
  | e, x :: xs => minEntry (if x.1 < e.1 then x else e) xs

/-- Remove one occurrence of an entry from the queue. -/
def erase1 : List (ℚ × String) → (ℚ × String) → List (ℚ × String)
  | [], _ => []
  | x :: xs, m => if x = m then xs else x :: erase1 xs m

/-- `heapq.heappop`: extract one minimum-priority entry. -/
def popMin : List (ℚ × String) → Option ((ℚ × String) × List (ℚ × String))
  | [] => none
  | x :: xs =>
    let m := minEntry x xs
    some (m, erase1 (x :: xs) m)

/-- The mutable state of `_dijkstra`'s main loop. -/
structure DState where
  queue : List (ℚ × String)
  distances : List (String × ℚ)
  previous : List (String × Option String)

/-- `distance < distances.get(neighbor, float("inf"))`. -/
def improves (distances : List (String × ℚ)) (neighbor : String) (distance : ℚ) : Prop :=
  match dget distances neighbor with
  | none => True
  | some dv => distance < dv

instance (d : List (String × ℚ)) (n : String) (x : ℚ) : Decidable (improves d n x) :=
  match h : dget d n with
  | none => isTrue (by simp [improves, h])
  | some dv =>
    if hlt : x < dv then isTrue (by simp [improves, h, hlt])
    else isFalse (by simp [improves, h, hlt])

/-- `current_distance > distances.get(node, float("inf"))` (lazy deletion test). -/
def stale (distances : List (String × ℚ)) (node : String) (current_distance : ℚ) : Prop :=
  match dget distances node with
  | none => False
  | some dv => dv < current_distance

instance (d : List (String × ℚ)) (n : String) (x : ℚ) : Decidable (stale d n x) :=
  match h : dget d n with
  | none => isFalse (by simp [stale, h])
  | some dv =>
    if hlt : dv < x then isTrue (by simp [stale, h, hlt])
    else isFalse (by simp [stale, h, hlt])

/-- The `for neighbor, weight in adjacency.get(node, [])` relaxation loop. -/
def relaxNeighbors (node : String) (current_distance : ℚ) :
    List (String × ℚ) → DState → DState
  | [], s => s
  | (neighbor, weight) :: restNbrs, s =>
    let distance := current_distance + weight
    if improves s.distances neighbor distance then
      relaxNeighbors node current_distance restNbrs
        ⟨(distance, neighbor) :: s.queue,
         dset s.distances neighbor distance,
         dset s.previous neighbor (some node)⟩
    else relaxNeighbors node current_distance restNbrs s

/-- The `while queue:` loop, with explicit fuel (each iteration pops one
entry; the fuel chosen in `dijkstra` is proved sufficient below). -/
def dloop (adjacency : Adjacency) (goal : String) : ℕ → DState → DState
  | 0, s => s
  | fuel + 1, s =>
    match popMin s.queue with
    | none => s
    | some ((current_distance, node), rest) =>
      if node = goal then { s with queue := rest }
      else if stale s.distances node current_distance then
        dloop adjacency goal fuel { s with queue := rest }
      else
        dloop adjacency goal fuel
          (relaxNeighbors node current_distance (adjGet adjacency node)
            { s with queue := rest })

/-- Total number of neighbor entries; bounds the number of pushes. -/
def totalAdjLen (adjacency : Adjacency) : ℕ :=
  (adjacency.map (fun p => p.2.length)).sum

/-- Fuel sufficient for the main loop to reach its exit condition. -/
def dijkstraFuel (adjacency : Adjacency) : ℕ := totalAdjLen adjacency + 2

/-- The `while node is not None` predecessor-chain walk (pre-reversal order),
with fuel; the fuel used in `buildPath` is proved sufficient below. -/
def chainAux (previous : List (String × Option String)) : ℕ → String → List String
  | 0, node => [node]
  | fuel + 1, node =>
    node :: (match dget previous node with
             | some (some p) => chainAux previous fuel p
             | _ => [])

/-- Path reconstruction: walk `previous` from `goal`, then `path.reverse()`. -/
def buildPath (previous : List (String × Option String)) (goal : String) : List String :=
  (chainAux previous (previous.length + 1) goal).reverse

/-- The return statements of `_dijkstra` after the loop:
`if goal not in previous: return None, []` else reconstruct and return
`distances.get(goal), path`. -/
def dijkstraPost (goal : String) (s : DState) : Option ℚ × List String :=
  if (dget s.previous goal).isSome then (dget s.distances goal, buildPath s.previous goal)
  else (none, [])

/-- `_dijkstra(start, goal, adjacency)`. -/
def dijkstra (start goal : String) (adjacency : Adjacency) : Option ℚ × List String :=
  dijkstraPost goal
    (dloop adjacency goal (dijkstraFuel adjacency) ⟨[(0, start)], [(start, 0)], [(start, none)]⟩)

/-! ## Building-to-building search
(`_shortest_path_between_buildings`, planner.py lines 126–145) -/

/-- The nested `for start_node … for end_node …` loop over entrance pairs,
with the `best_time`/`best_path` accumulator. -/
def bestLeg (adjacency : Adjacency) :
    List (String × String) → Option ℚ → List String → Option ℚ × List String
  | [], best_time, best_path => (best_time, best_path)
  | (start_node, end_node) :: restPairs, best_time, best_path =>
    let r := dijkstra start_node end_node adjacency
    match r.1 with
    | none => bestLeg adjacency restPairs best_time best_path
    | some time_s =>
      if r.2 = [] then bestLeg adjacency restPairs best_time best_path
      else
        match best_time with
        | none => bestLeg adjacency restPairs (some time_s) r.2
        | some bt =>
          if time_s < bt then bestLeg adjacency restPairs (some time_s) r.2
          else bestLeg adjacency restPairs best_time best_path

/-- The entrance cross-product, in loop order. -/
def entrancePairs (entrA entrB : List String) : List (String × String) :=
  (entrA.map (fun s => entrB.map (fun e => (s, e)))).flatten

/-- `_shortest_path_between_buildings(building_start, building_end, adjacency)`. -/
def shortestPathBetweenBuildings (bById : List (String × Building))
    (building_start building_end : String) (adjacency : Adjacency) :
    Option ℚ × List String :=
  let entrA := ((dget bById building_start).map Building.entranceNodeIds).getD []
  let entrB := ((dget bById building_end).map Building.entranceNodeIds).getD []
  bestLeg adjacency (entrancePairs entrA entrB) none []

/-! ## Route stitcher (`compute_route`, planner.py lines 162–327) -/

/-- One element of the response's `legs` array. -/
structure Leg where
  from_building : String
  to_building : String
  time_s : ℚ
  polyline : List (ℚ × ℚ)
  label_position : ℚ × ℚ
deriving DecidableEq, Repr

/-- The `"buildings"` field of the request body: either not a JSON list at
all, or a list of building-code strings. -/
inductive BuildingsInput
  | notAList
  | list (codes : List String)
deriving DecidableEq, Repr

/-- The observable outcome of `compute_route`: one of the structured HTTP 400
errors, or the success payload (the stitched `combined_path` is kept even
though the HTTP response omits it). -/
inductive RouteResult
  | invalidRequest
  | unknownBuildings (codes : List String)
  | insufficientEndpoints
  | noPathFound (from_code to_code : String)
  | ok (legs : List Leg) (total_time_s : ℚ) (combined_path : List String)
deriving DecidableEq, Repr

/-- The `for start_code, end_code in zip(building_codes, building_codes[1:])`
loop: accumulate legs, total time and the stitched path, failing the whole
request on the first leg with no path. -/
def legsLoop (bById : List (String × Building)) (nById : List (String × Node))
    (adjacency : Adjacency) :
    List (String × String) → ℚ → List String → List Leg → RouteResult
  | [], total_time_s, combined_path, legs => .ok legs total_time_s combined_path
  | (start_code, end_code) :: restPairs, total_time_s, combined_path, legs =>
    let r := shortestPathBetweenBuildings bById start_code end_code adjacency
    match r.1 with
    | none => .noPathFound start_code end_code
    | some leg_time =>
      if r.2 = [] then .noPathFound start_code end_code
      else
        let node_path := r.2
        let total_time_s := total_time_s + leg_time
        let combined_path :=
          if combined_path ≠ [] ∧ node_path ≠ [] ∧
              combined_path.getLast? = node_path.head? then
            combined_path ++ node_path.tail
          else combined_path ++ node_path
        let polyline := node_path.filterMap
          (fun node_id => (dget nById node_id).map (fun n => (n.x, n.y)))
        let label_position :=
          if polyline = [] then ((0 : ℚ), (0 : ℚ))
          else ((polyline.map Prod.fst).sum / polyline.length,
                (polyline.map Prod.snd).sum / polyline.length)
        legsLoop bById nById adjacency restPairs total_time_s combined_path
          (legs ++ [⟨start_code, end_code, leg_time, polyline, label_position⟩])

/-- `compute_route` (the pure core: validation order, leg computation and
stitching; HTTP/JSON serialization and localization strings are out of the
algorithmic scope). -/
def computeRoute (graph : Graph) (buildings_input : BuildingsInput) : RouteResult :=
  let adjacency := buildAdjacency graph
  let bById := buildingsById graph
  let nById := nodesById graph
  match buildings_input with
  | .notAList => .invalidRequest
  | .list building_codes =>
    if building_codes = [] then .invalidRequest
    else
      let invalid_codes := building_codes.filter (fun code => (dget bById code).isNone)
      if invalid_codes ≠ [] then .unknownBuildings invalid_codes
      else if building_codes.length < 2 then .insufficientEndpoints
      else legsLoop bById nById adjacency
        (building_codes.zip building_codes.tail) 0 [] []

/-! ## Lemmas about `popMin` (the heap-pop model) -/

theorem minEntry_mem (e : ℚ × String) (xs : List (ℚ × String)) :
    minEntry e xs ∈ e :: xs := by
  induction xs generalizing e with
  | nil => simp [minEntry]
  | cons x xs ih =>
    rw [minEntry]
    rcases List.mem_cons.mp (ih (if x.1 < e.1 then x else e)) with h | h
    · rw [h]
      by_cases hlt : x.1 < e.1
      · rw [if_pos hlt]
        exact .tail _ (List.mem_cons_self _ _)
      · rw [if_neg hlt]
        exact List.mem_cons_self _ _
    · exact .tail _ (.tail _ h)

theorem minEntry_le (e : ℚ × String) (xs : List (ℚ × String)) :
    ∀ y ∈ e :: xs, (minEntry e xs).1 ≤ y.1 := by
  induction xs generalizing e with
  | nil =>
    intro y hy
    rw [List.mem_singleton] at hy
    subst hy
    exact le_refl _
  | cons x xs ih =>
    intro y hy
    rw [minEntry]
    have hle_e : (if x.1 < e.1 then x else e).1 ≤ e.1 := by
      by_cases hlt : x.1 < e.1
      · rw [if_pos hlt]
        exact le_of_lt hlt
      · rw [if_neg hlt]
    have hle_x : (if x.1 < e.1 then x else e).1 ≤ x.1 := by
      by_cases hlt : x.1 < e.1
      · rw [if_pos hlt]
      · rw [if_neg hlt]
        exact le_of_not_lt hlt
    have hmin : (minEntry (if x.1 < e.1 then x else e) xs).1 ≤ (if x.1 < e.1 then x else e).1 :=
      ih _ _ (List.mem_cons_self _ _)
    rcases List.mem_cons.mp hy with hy1 | hy'
    · subst hy1
      exact le_trans hmin hle_e
    · rcases List.mem_cons.mp hy' with hy1 | hy2
      · subst hy1
        exact le_trans hmin hle_x
      · exact ih _ y (List.mem_cons_of_mem _ hy2)

/-- Multiplicity of an entry in the queue. -/
def cnt : List (ℚ × String) → (ℚ × String) → ℕ
  | [], _ => 0
  | x :: xs, y => (if x = y then 1 else 0) + cnt xs y

theorem cnt_perm {l1 l2 : List (ℚ × String)} (h : l1.Perm l2) (y : ℚ × String) :
    cnt l1 y = cnt l2 y := by
  induction h with
  | nil => rfl
  | cons x _ ih => simp only [cnt, ih]
  | swap a b l =>
    simp only [cnt]
    omega
  | trans _ _ ih1 ih2 => rw [ih1, ih2]

theorem cnt_pos_iff_mem {l : List (ℚ × String)} {y : ℚ × String} :
    0 < cnt l y ↔ y ∈ l := by
  induction l with
  | nil => simp [cnt]
  | cons x xs ih =>
    rw [cnt]
    by_cases hx : x = y
    · simp [hx]
    · simp only [if_neg hx, Nat.zero_add, ih, List.mem_cons]
      constructor
      · exact Or.inr
      · rintro (h | h)
        · exact absurd h.symm hx
        · exact h

theorem not_mem_of_cnt_zero {l : List (ℚ × String)} {y : ℚ × String}
    (h : cnt l y = 0) : y ∉ l := by
  intro hm
  have := cnt_pos_iff_mem.mpr hm
  omega

theorem erase1_perm {l : List (ℚ × String)} {m : ℚ × String} (h : m ∈ l) :
    l.Perm (m :: erase1 l m) := by
  induction l with
  | nil => simp at h
  | cons x xs ih =>
    by_cases hx : x = m
    · subst hx
      rw [erase1, if_pos rfl]
    · rw [erase1, if_neg hx]
      have hm : m ∈ xs := by
        rcases List.mem_cons.mp h with h1 | h1
        · exact absurd h1.symm hx
        · exact h1
      exact ((ih hm).cons x).trans (List.Perm.swap _ _ _)

theorem popMin_eq_none_iff (l : List (ℚ × String)) : popMin l = none ↔ l = [] := by
  cases l with
  | nil => simp [popMin]
  | cons x xs => simp [popMin]

theorem popMin_mem {l : List (ℚ × String)} {m : ℚ × String} {rest : List (ℚ × String)}
    (h : popMin l = some (m, rest)) : m ∈ l := by
  cases l with
  | nil => simp [popMin] at h
  | cons x xs =>
    simp only [popMin, Option.some.injEq, Prod.mk.injEq] at h
    exact h.1 ▸ minEntry_mem x xs

theorem popMin_perm {l : List (ℚ × String)} {m : ℚ × String} {rest : List (ℚ × String)}
    (h : popMin l = some (m, rest)) : l.Perm (m :: rest) := by
  cases l with
  | nil => simp [popMin] at h
  | cons x xs =>
    simp only [popMin, Option.some.injEq, Prod.mk.injEq] at h
    obtain ⟨hm, hrest⟩ := h
    subst hm
    subst hrest
    exact erase1_perm (minEntry_mem x xs)

theorem popMin_min {l : List (ℚ × String)} {m : ℚ × String} {rest : List (ℚ × String)}
    (h : popMin l = some (m, rest)) : ∀ y ∈ l, m.1 ≤ y.1 := by
  cases l with
  | nil => simp [popMin] at h
  | cons x xs =>
    simp only [popMin, Option.some.injEq, Prod.mk.injEq] at h
    exact h.1 ▸ minEntry_le x xs

theorem mem_rest_of_popMin {l : List (ℚ × String)} {m y : ℚ × String}
    {rest : List (ℚ × String)} (h : popMin l = some (m, rest)) (hy : y ∈ rest) : y ∈ l :=
  (popMin_perm h).mem_iff.mpr (List.mem_cons_of_mem _ hy)

theorem cnt_rest_of_popMin {l : List (ℚ × String)} {m y : ℚ × String}
    {rest : List (ℚ × String)} (h : popMin l = some (m, rest)) :
    cnt rest y = cnt l y - (if m = y then 1 else 0) := by
  have hp := cnt_perm (popMin_perm h) y
  rw [cnt] at hp
  omega

/-! ## Reachability and explicit node-list paths over an adjacency -/

/-- Walks from `start`, grown edge-by-edge at the far end (the order in which
Dijkstra discovers them); `ReachC adjacency start v c` holds iff some walk
from `start` to `v` has total cost `c`. -/
inductive ReachC (adjacency : Adjacency) (start : String) : String → ℚ → Prop
  | refl : ReachC adjacency start start 0
  | step {u c v w} : ReachC adjacency start u c → (v, w) ∈ adjGet adjacency u →
      ReachC adjacency start v (c + w)

/-- An explicit node list is a walk with the given total cost. -/
inductive PathCost (adjacency : Adjacency) : List String → ℚ → Prop
  | single (u : String) : PathCost adjacency [u] 0
  | cons {u v : String} {rest : List String} {w c : ℚ} :
      (v, w) ∈ adjGet adjacency u → PathCost adjacency (v :: rest) c →
      PathCost adjacency (u :: v :: rest) (w + c)

/-- Non-negative weights, stated decidably on the adjacency representation
(spec §3: "Traversable edge cost is always non-negative"). -/
def NonnegWeights (adjacency : Adjacency) : Prop :=
  ∀ p ∈ adjacency, ∀ q ∈ p.2, 0 ≤ q.2

instance (adjacency : Adjacency) : Decidable (NonnegWeights adjacency) := by
  unfold NonnegWeights
  infer_instance

/-- Membership-level consequence of `NonnegWeights`. -/
def NonnegSteps (adjacency : Adjacency) : Prop :=
  ∀ u v w, (v, w) ∈ adjGet adjacency u → 0 ≤ w

theorem nonnegSteps_of_nonnegWeights {adjacency : Adjacency}
    (h : NonnegWeights adjacency) : NonnegSteps adjacency := by
  intro u v w hm
  unfold adjGet at hm
  cases hd : dget adjacency u with
  | none => rw [hd] at hm; simp at hm
  | some l =>
    rw [hd] at hm
    exact h _ (dget_eq_some_mem hd) _ hm

theorem reach_nonneg {adjacency : Adjacency} {start v : String} {c : ℚ}
    (hw : NonnegSteps adjacency) (h : ReachC adjacency start v c) : 0 ≤ c := by
  induction h with
  | refl => exact le_refl _
  | step _ hm ih => exact add_nonneg ih (hw _ _ _ hm)

theorem pathCost_snoc {adjacency : Adjacency} {p : List String} {c : ℚ} {u v : String} {w : ℚ}
    (h : PathCost adjacency p c) (hlast : p.getLast? = some u)
    (hm : (v, w) ∈ adjGet adjacency u) : PathCost adjacency (p ++ [v]) (c + w) := by
  induction h with
  | single x =>
    simp only [List.getLast?_singleton, Option.some.injEq] at hlast
    subst hlast
    have := PathCost.cons hm (PathCost.single v)
    simpa [add_comm] using this
  | @cons a b rest w' c' hm' hp ih =>
    have hlast' : (b :: rest).getLast? = some u := by
      rwa [List.getLast?_cons_cons] at hlast
    have := PathCost.cons hm' (ih hlast')
    simpa [add_assoc] using this

theorem reach_to_path {adjacency : Adjacency} {start v : String} {c : ℚ}
    (h : ReachC adjacency start v c) :
    ∃ p, PathCost adjacency p c ∧ p.head? = some start ∧ p.getLast? = some v := by
  induction h with
  | refl => exact ⟨[start], PathCost.single start, rfl, rfl⟩
  | @step u c' x w _ hm ih =>
    obtain ⟨p, hp, hhead, hlast⟩ := ih
    refine ⟨p ++ [x], pathCost_snoc hp hlast hm, ?_, ?_⟩
    · cases p with
      | nil => simp at hhead
      | cons a t => simpa using hhead
    · simp

theorem reach_append {adjacency : Adjacency} {start : String} {p : List String} {c : ℚ}
    (hp : PathCost adjacency p c) :
    ∀ {v x : String} {c0 : ℚ}, ReachC adjacency start v c0 → p.head? = some v →
      p.getLast? = some x → ReachC adjacency start x (c0 + c) := by
  induction hp with
  | single u =>
    intro v x c0 h0 hhead hlast
    simp only [List.head?_cons, Option.some.injEq] at hhead
    simp only [List.getLast?_singleton, Option.some.injEq] at hlast
    subst hhead
    subst hlast
    simpa using h0
  | @cons a b rest' w' c' hm hp' ih =>
    intro v x c0 h0 hhead hlast
    simp only [List.head?_cons, Option.some.injEq] at hhead
    subst hhead
    have h1 : ReachC adjacency start b (c0 + w') := ReachC.step h0 hm
    have hlast' : (b :: rest').getLast? = some x := by
      rwa [List.getLast?_cons_cons] at hlast
    have := ih h1 rfl hlast'
    simpa [add_assoc] using this

theorem path_to_reach {adjacency : Adjacency} {p : List String} {c : ℚ} {s v : String}
    (hp : PathCost adjacency p c) (hhead : p.head? = some s) (hlast : p.getLast? = some v) :
    ReachC adjacency s v c := by
  have := reach_append hp (ReachC.refl) hhead hlast
  simpa using this

/-! ## Claim C3: the edge cost model -/

/-- The travel-time formula the spec states for a traversable edge. -/
def specEdgeCost (edge : Edge) (settings : Settings) : ℚ :=
  edge.length_m / settings.walking_speed_mps + edge.penalty_s.getD 0 +
    ((if edge.flags.stairs then settings.penalties.stairs_s.getD 0 else 0) +
     (if edge.flags.steep then settings.penalties.steep_s.getD 0 else 0) +
     (if edge.flags.covered then settings.penalties.covered_s.getD 0 else 0))

/-- **C3.** `_edge_travel_time` returns `None` exactly when the edge's
`blocked` flag is set or its id is in the blocked-id set; otherwise it
returns `length_m / walking_speed_mps` plus the edge's fixed penalty
(default 0) plus the configured penalty for each set flag among
`stairs`, `steep`, `covered`.  (The positive-speed hypothesis reflects
spec §4.2: a non-positive walking speed is a load-time configuration
error, not a per-call condition.) -/
theorem C3_edge_travel_time (edge : Edge) (settings : Settings)
    (blocked_edge_ids : List String) (hspeed : 0 < settings.walking_speed_mps) :
    (edgeTravelTime edge settings blocked_edge_ids = none ↔
      (edge.flags.blocked = true ∨ edge.id ∈ blocked_edge_ids)) ∧
    (¬(edge.flags.blocked = true ∨ edge.id ∈ blocked_edge_ids) →
      edgeTravelTime edge settings blocked_edge_ids = some (specEdgeCost edge settings)) := by
  constructor
  · constructor
    · intro h
      by_contra hc
      push_neg at hc
      rw [edgeTravelTime, if_neg (by simp [hc.1]), if_neg hc.2] at h
      simp at h
    · rintro (h | h)
      · rw [edgeTravelTime, if_pos h]
      · by_cases hb : edge.flags.blocked
        · rw [edgeTravelTime, if_pos hb]
        · rw [edgeTravelTime, if_neg hb, if_pos h]
  · intro hc
    push_neg at hc
    rw [edgeTravelTime, if_neg (by simp [hc.1]), if_neg hc.2]
    simp only [Option.some.injEq, specEdgeCost]
    by_cases h1 : edge.flags.stairs <;> by_cases h2 : edge.flags.steep <;>
      by_cases h3 : edge.flags.covered <;> simp [h1, h2, h3] <;> ring

/-- Witness for C3 at a concrete edge: flags `stairs` and `steep` set, a
fixed penalty of 3 s, length 10 m at 2 m/s, stairs penalty 20 s. -/
theorem C3_witness :
    (0 : ℚ) < 2 ∧
    (edgeTravelTime ⟨"e1", "a", "b", 10, some 3, ⟨false, true, true, false⟩⟩
        ⟨2, ⟨some 20, none, some 7⟩⟩ ["e9"] = none ↔
      ((⟨"e1", "a", "b", 10, some 3, ⟨false, true, true, false⟩⟩ : Edge).flags.blocked = true ∨
        "e1" ∈ ["e9"])) ∧
    (¬((⟨"e1", "a", "b", 10, some 3, ⟨false, true, true, false⟩⟩ : Edge).flags.blocked = true ∨
        "e1" ∈ ["e9"]) →
      edgeTravelTime ⟨"e1", "a", "b", 10, some 3, ⟨false, true, true, false⟩⟩
        ⟨2, ⟨some 20, none, some 7⟩⟩ ["e9"] =
        some (specEdgeCost ⟨"e1", "a", "b", 10, some 3, ⟨false, true, true, false⟩⟩
          ⟨2, ⟨some 20, none, some 7⟩⟩)) :=
  ⟨by norm_num,
   C3_edge_travel_time ⟨"e1", "a", "b", 10, some 3, ⟨false, true, true, false⟩⟩
     ⟨2, ⟨some 20, none, some 7⟩⟩ ["e9"] (by norm_num)⟩

/-! ## Claim C4: the adjacency builder -/

theorem dget_init_isSome (nodes : List Node) (acc : Adjacency) (k : String) :
    (dget (nodes.foldl (fun adj node => dset adj node.id []) acc) k).isSome ↔
      (dget acc k).isSome ∨ k ∈ nodes.map Node.id := by
  induction nodes generalizing acc with
  | nil => simp
  | cons n ns ih =>
    rw [List.foldl_cons, ih]
    by_cases h : n.id = k
    · subst h
      simp
    · rw [dget_dset_ne _ _ _ _ h]
      simp only [List.map_cons, List.mem_cons]
      constructor
      · rintro (h1 | h1)
        · exact Or.inl h1
        · exact Or.inr (Or.inr h1)
      · rintro (h1 | h1 | h1)
        · exact Or.inl h1
        · exact absurd h1.symm h
        · exact Or.inr h1

theorem dget_init_empty (nodes : List Node) (acc : Adjacency)
    (hacc : ∀ k v, dget acc k = some v → v = []) :
    ∀ k v, dget (nodes.foldl (fun adj node => dset adj node.id []) acc) k = some v →
      v = [] := by
  induction nodes generalizing acc with
  | nil => exact hacc
  | cons n ns ih =>
    rw [List.foldl_cons]
    apply ih
    intro k v hk
    by_cases h : n.id = k
    · subst h
      rw [dget_dset_self] at hk
      exact (Option.some.injEq _ _).mp hk.symm
    · rw [dget_dset_ne _ _ _ _ h] at hk
      exact hacc _ _ hk

theorem dget_dmodify_isSome {α : Type} (l : List (String × α)) (k k' : String) (f : α → α) :
    (dget (dmodify l k f) k').isSome = (dget l k').isSome := by
  rw [dget_dmodify]
  by_cases h : k' = k
  · rw [if_pos h]
    cases dget l k' <;> rfl
  · rw [if_neg h]

theorem dget_addEdge_isSome (s : Settings) (bl : List String) (adjacency : Adjacency)
    (edge : Edge) (k : String) :
    (dget (addEdge s bl adjacency edge) k).isSome = (dget adjacency k).isSome := by
  cases h : edgeTravelTime edge s bl with
  | none => simp [addEdge, h]
  | some t =>
    simp only [addEdge, h]
    by_cases hif : ((dget adjacency edge.fromId).isSome && (dget adjacency edge.toId).isSome) = true
    · rw [if_pos hif, dget_dmodify_isSome, dget_dmodify_isSome]
    · rw [if_neg hif]

theorem adjGet_dmodify_append (l : Adjacency) (k u : String) (p : String × ℚ) :
    adjGet (dmodify l k (fun x => x ++ [p])) u =
      if u = k ∧ (dget l k).isSome then adjGet l u ++ [p] else adjGet l u := by
  unfold adjGet
  rw [dget_dmodify]
  by_cases h : u = k
  · subst h
    cases hg : dget l u with
    | none => simp [hg]
    | some lu => simp [hg]
  · rw [if_neg h, if_neg (fun hc => h hc.1)]

theorem mem_adjGet_addEdge (s : Settings) (bl : List String) (adjacency : Adjacency)
    (edge : Edge) (u v : String) (w : ℚ) :
    (v, w) ∈ adjGet (addEdge s bl adjacency edge) u ↔
      (v, w) ∈ adjGet adjacency u ∨
      (edgeTravelTime edge s bl = some w ∧
        (dget adjacency edge.fromId).isSome ∧ (dget adjacency edge.toId).isSome ∧
        ((edge.fromId = u ∧ edge.toId = v) ∨ (edge.toId = u ∧ edge.fromId = v))) := by
  cases h : edgeTravelTime edge s bl with
  | none => simp [addEdge, h]
  | some t =>
    simp only [addEdge, h]
    by_cases hif : ((dget adjacency edge.fromId).isSome && (dget adjacency edge.toId).isSome) = true
    · rw [if_pos hif]
      rw [Bool.and_eq_true] at hif
      obtain ⟨hf, ht⟩ := hif
      have hf1 : (dget (dmodify adjacency edge.fromId (fun l => l ++ [(edge.toId, t)]))
          edge.toId).isSome := by rw [dget_dmodify_isSome]; exact ht
      rw [adjGet_dmodify_append, adjGet_dmodify_append]
      by_cases hu_to : u = edge.toId
      · rw [if_pos ⟨hu_to, hf1⟩]
        by_cases hu_from : u = edge.fromId
        · rw [if_pos ⟨hu_from, hf⟩]
          simp only [List.mem_append, List.mem_singleton, Prod.mk.injEq, h,
            Option.some.injEq, hf, ht, true_and]
          aesop
        · rw [if_neg (fun hc => hu_from hc.1)]
          simp only [List.mem_append, List.mem_singleton, Prod.mk.injEq, h,
            Option.some.injEq, hf, ht, true_and]
          aesop
      · rw [if_neg (fun hc => hu_to hc.1)]
        by_cases hu_from : u = edge.fromId
        · rw [if_pos ⟨hu_from, hf⟩]
          simp only [List.mem_append, List.mem_singleton, Prod.mk.injEq, h,
            Option.some.injEq, hf, ht, true_and]
          aesop
        · rw [if_neg (fun hc => hu_from hc.1)]
          simp only [h, Option.some.injEq, hf, ht, true_and]
          aesop
    · rw [if_neg hif]
      rw [Bool.and_eq_true] at hif
      constructor
      · exact Or.inl
      · rintro (h1 | ⟨hw, hf, ht, _⟩)
        · exact h1
        · exact absurd ⟨hf, ht⟩ hif

theorem dget_foldl_addEdge_isSome (s : Settings) (bl : List String) (edges : List Edge)
    (acc : Adjacency) (k : String) :
    (dget (edges.foldl (addEdge s bl) acc) k).isSome = (dget acc k).isSome := by
  induction edges generalizing acc with
  | nil => rfl
  | cons e es ih => rw [List.foldl_cons, ih, dget_addEdge_isSome]

theorem mem_adjGet_foldl_addEdge (s : Settings) (bl : List String) (edges : List Edge)
    (acc : Adjacency) (u v : String) (w : ℚ) :
    (v, w) ∈ adjGet (edges.foldl (addEdge s bl) acc) u ↔
      (v, w) ∈ adjGet acc u ∨
      ∃ e ∈ edges, edgeTravelTime e s bl = some w ∧
        (dget acc e.fromId).isSome ∧ (dget acc e.toId).isSome ∧
        ((e.fromId = u ∧ e.toId = v) ∨ (e.toId = u ∧ e.fromId = v)) := by
  induction edges generalizing acc with
  | nil => simp
  | cons e es ih =>
    rw [List.foldl_cons, ih, mem_adjGet_addEdge]
    simp only [dget_addEdge_isSome, List.exists_mem_cons_iff]
    exact or_assoc

/-- Characterization of `_build_adjacency` (used both for claim C4 and for
the block-list analysis). -/
theorem buildAdjacency_char (g : Graph) :
    (∀ k, (dget (buildAdjacency g) k).isSome ↔ k ∈ g.nodes.map Node.id) ∧
    (∀ u v w, (v, w) ∈ adjGet (buildAdjacency g) u ↔
      ∃ e ∈ g.edges,
        edgeTravelTime e g.settings g.overrides.blockedEdgeIds = some w ∧
        e.fromId ∈ g.nodes.map Node.id ∧ e.toId ∈ g.nodes.map Node.id ∧
        ((e.fromId = u ∧ e.toId = v) ∨ (e.toId = u ∧ e.fromId = v))) ∧
    (∀ k, k ∈ g.nodes.map Node.id → (∀ v w, (v, w) ∉ adjGet (buildAdjacency g) k) →
      dget (buildAdjacency g) k = some []) := by
  have hkeys : ∀ k, (dget (buildAdjacency g) k).isSome ↔ k ∈ g.nodes.map Node.id := by
    intro k
    rw [buildAdjacency, dget_foldl_addEdge_isSome, dget_init_isSome]
    simp
  have hinit_empty : ∀ u v w,
      (v, w) ∉ adjGet (g.nodes.foldl (fun adj node => dset adj node.id []) ([] : Adjacency)) u := by
    intro u v w hm
    unfold adjGet at hm
    cases hg : dget (g.nodes.foldl (fun adj node => dset adj node.id []) []) u with
    | none => rw [hg] at hm; simp at hm
    | some lu =>
      rw [hg] at hm
      have := dget_init_empty g.nodes [] (by intro k v h; simp [dget] at h) u lu hg
      subst this
      simp at hm
  have hinit_isSome : ∀ k,
      (dget (g.nodes.foldl (fun adj node => dset adj node.id []) ([] : Adjacency)) k).isSome ↔
        k ∈ g.nodes.map Node.id := by
    intro k
    rw [dget_init_isSome]
    simp
  refine ⟨hkeys, ?_, ?_⟩
  · intro u v w
    rw [buildAdjacency, mem_adjGet_foldl_addEdge]
    constructor
    · rintro (h | ⟨e, he, hc, hf, ht, hd⟩)
      · exact absurd h (hinit_empty u v w)
      · exact ⟨e, he, hc, (hinit_isSome _).mp hf, (hinit_isSome _).mp ht, hd⟩
    · rintro ⟨e, he, hc, hf, ht, hd⟩
      exact Or.inr ⟨e, he, hc, (hinit_isSome _).mpr hf, (hinit_isSome _).mpr ht, hd⟩
  · intro k hk hno
    obtain ⟨l, hl⟩ := Option.isSome_iff_exists.mp ((hkeys k).mpr hk)
    cases l with
    | nil => exact hl
    | cons p t =>
      exfalso
      apply hno p.1 p.2
      unfold adjGet
      rw [hl]
      simp

/-- **C4.** `build(graph)`'s adjacency has exactly the graph's node ids as
keys (isolated nodes map to empty lists, never missing keys); an edge whose
cost is unreachable or with an unknown endpoint contributes no entry; and
every traversable edge with known endpoints appears as a neighbor relation
in both directions with its computed cost. -/
theorem C4_build_adjacency (g : Graph) :
    (∀ k, (dget (buildAdjacency g) k).isSome ↔ k ∈ g.nodes.map Node.id) ∧
    (∀ u v w, (v, w) ∈ adjGet (buildAdjacency g) u ↔
      ∃ e ∈ g.edges,
        edgeTravelTime e g.settings g.overrides.blockedEdgeIds = some w ∧
        e.fromId ∈ g.nodes.map Node.id ∧ e.toId ∈ g.nodes.map Node.id ∧
        ((e.fromId = u ∧ e.toId = v) ∨ (e.toId = u ∧ e.fromId = v))) ∧
    (∀ k, k ∈ g.nodes.map Node.id → (∀ v w, (v, w) ∉ adjGet (buildAdjacency g) k) →
      dget (buildAdjacency g) k = some []) :=
  buildAdjacency_char g

/-- Witness for C4 at a concrete two-node, one-edge graph with one isolated
extra node. -/
theorem C4_witness :
    (∀ k, (dget (buildAdjacency ⟨[⟨"a", 0, 0⟩, ⟨"b", 1, 0⟩, ⟨"iso", 2, 2⟩],
        [⟨"e1", "a", "b", 5, none, ⟨false, false, false, false⟩⟩], [],
        ⟨1, ⟨none, none, none⟩⟩, ⟨[]⟩⟩) k).isSome ↔
      k ∈ (["a", "b", "iso"] : List String)) ∧
    (dget (buildAdjacency ⟨[⟨"a", 0, 0⟩, ⟨"b", 1, 0⟩, ⟨"iso", 2, 2⟩],
        [⟨"e1", "a", "b", 5, none, ⟨false, false, false, false⟩⟩], [],
        ⟨1, ⟨none, none, none⟩⟩, ⟨[]⟩⟩) "iso" = some []) := by
  constructor
  · intro k
    have h := (C4_build_adjacency ⟨[⟨"a", 0, 0⟩, ⟨"b", 1, 0⟩, ⟨"iso", 2, 2⟩],
        [⟨"e1", "a", "b", 5, none, ⟨false, false, false, false⟩⟩], [],
        ⟨1, ⟨none, none, none⟩⟩, ⟨[]⟩⟩).1 k
    simpa using h
  · refine (C4_build_adjacency _).2.2 "iso" (by simp) ?_
    intro v w hm
    have hval : adjGet (buildAdjacency ⟨[⟨"a", 0, 0⟩, ⟨"b", 1, 0⟩, ⟨"iso", 2, 2⟩],
        [⟨"e1", "a", "b", 5, none, ⟨false, false, false, false⟩⟩], [],
        ⟨1, ⟨none, none, none⟩⟩, ⟨[]⟩⟩) "iso" = [] := by decide
    rw [hval] at hm
    exact absurd hm (List.not_mem_nil _)

/-- Values inserted by `dset` satisfy a predicate preserved from the old
list. -/
theorem values_pres_dset {α : Type} (Q : α → Prop) (l : List (String × α)) (k : String)
    (v : α) (hl : ∀ p ∈ l, Q p.2) (hv : Q v) : ∀ p ∈ dset l k v, Q p.2 := by
  intro p hp
  rcases List.mem_cons.mp hp with h1 | h1
  · subst h1
    exact hv
  · exact hl p (List.mem_of_mem_filter h1)

theorem values_pres_dmodify {α : Type} (Q : α → Prop) (l : List (String × α)) (k : String)
    (f : α → α) (hl : ∀ p ∈ l, Q p.2) (hf : ∀ x, Q x → Q (f x)) :
    ∀ p ∈ dmodify l k f, Q p.2 := by
  intro p hp
  obtain ⟨p0, hp0, hpe⟩ := List.mem_map.mp hp
  by_cases h : p0.1 = k
  · rw [if_pos h] at hpe
    subst hpe
    exact hf _ (hl p0 hp0)
  · rw [if_neg h] at hpe
    subst hpe
    exact hl p0 hp0

theorem init_fold_values (P : ℚ → Prop) :
    ∀ (nodes : List Node) (acc : Adjacency),
      (∀ p ∈ acc, ∀ q ∈ p.2, P q.2) →
      ∀ p ∈ nodes.foldl (fun adj node => dset adj node.id []) acc, ∀ q ∈ p.2, P q.2 := by
  intro nodes
  induction nodes with
  | nil =>
    intro acc hacc
    exact hacc
  | cons n ns ih =>
    intro acc hacc
    rw [List.foldl_cons]
    exact ih _ (values_pres_dset (fun (vl : List (String × ℚ)) => ∀ q ∈ vl, P q.2) acc n.id [] hacc
      (by intro q hq; cases hq))

theorem edge_fold_values (s : Settings) (bl : List String) (P : ℚ → Prop) :
    ∀ (edges : List Edge) (acc : Adjacency),
      (∀ e ∈ edges, ∀ w, edgeTravelTime e s bl = some w → P w) →
      (∀ p ∈ acc, ∀ q ∈ p.2, P q.2) →
      ∀ p ∈ edges.foldl (addEdge s bl) acc, ∀ q ∈ p.2, P q.2 := by
  intro edges
  induction edges with
  | nil =>
    intro acc _ hacc
    exact hacc
  | cons e es ih =>
    intro acc he hacc
    rw [List.foldl_cons]
    apply ih _ (fun e2 he2 => he e2 (List.mem_cons_of_mem _ he2))
    cases hc : edgeTravelTime e s bl with
    | none =>
      simp only [addEdge, hc]
      exact hacc
    | some t =>
      have hPt : P t := he e (List.mem_cons_self _ _) t hc
      simp only [addEdge, hc]
      by_cases hif : ((dget acc e.fromId).isSome && (dget acc e.toId).isSome) = true
      · rw [if_pos hif]
        refine values_pres_dmodify (fun (vl : List (String × ℚ)) => ∀ q ∈ vl, P q.2) _ _ _ ?_ ?_
        · refine values_pres_dmodify (fun (vl : List (String × ℚ)) => ∀ q ∈ vl, P q.2) _ _ _ hacc ?_
          intro x hx q hq
          rcases List.mem_append.mp hq with h1 | h1
          · exact hx q h1
          · rw [List.mem_singleton] at h1
            subst h1
            exact hPt
        · intro x hx q hq
          rcases List.mem_append.mp hq with h1 | h1
          · exact hx q h1
          · rw [List.mem_singleton] at h1
            subst h1
            exact hPt
      · rw [if_neg hif]
        exact hacc

/-- Graph-level sufficient condition for `NonnegWeights` of the built
adjacency. -/
theorem nonnegWeights_buildAdjacency (g : Graph)
    (h : ∀ e ∈ g.edges, ∀ w,
      edgeTravelTime e g.settings g.overrides.blockedEdgeIds = some w → 0 ≤ w) :
    NonnegWeights (buildAdjacency g) := by
  intro p hp q hq
  rw [buildAdjacency] at hp
  exact edge_fold_values g.settings g.overrides.blockedEdgeIds (fun w => 0 ≤ w)
    g.edges _ h
    (init_fold_values _ g.nodes [] (by intro p hp; cases hp)) p hp q hq

/-! ## Basic Dijkstra loop invariant (no sign assumption on weights) -/

theorem improves_some {distances : List (String × ℚ)} {n : String} {x dv : ℚ}
    (h : improves distances n x) (hd : dget distances n = some dv) : x < dv := by
  unfold improves at h
  rw [hd] at h
  exact h

theorem not_improves_some {distances : List (String × ℚ)} {n : String} {x : ℚ}
    (h : ¬ improves distances n x) : ∃ dv, dget distances n = some dv ∧ dv ≤ x := by
  unfold improves at h
  cases hd : dget distances n with
  | none => rw [hd] at h; exact absurd trivial h
  | some dv =>
    rw [hd] at h
    exact ⟨dv, rfl, le_of_not_lt h⟩

/-- State facts that hold throughout the loop for arbitrary weights. -/
structure BInv (adjacency : Adjacency) (start : String) (s : DState) : Prop where
  q_dist : ∀ e ∈ s.queue, ∃ dv, dget s.distances e.2 = some dv ∧ dv ≤ e.1
  q_reach : ∀ e ∈ s.queue, ReachC adjacency start e.2 e.1
  d_reach : ∀ v dv, dget s.distances v = some dv → ReachC adjacency start v dv
  dom_eq : ∀ v, (dget s.distances v).isSome ↔ (dget s.previous v).isSome

theorem binv_relax {adjacency : Adjacency} {start node : String} {d : ℚ}
    (nbrs : List (String × ℚ)) (s : DState)
    (hB : BInv adjacency start s)
    (hreach : ReachC adjacency start node d)
    (hsub : ∀ e ∈ nbrs, e ∈ adjGet adjacency node) :
    BInv adjacency start (relaxNeighbors node d nbrs s) := by
  induction nbrs generalizing s with
  | nil => exact hB
  | cons nb rest ih =>
    obtain ⟨neighbor, weight⟩ := nb
    rw [relaxNeighbors]
    by_cases himp : improves s.distances neighbor (d + weight)
    · rw [if_pos himp]
      refine ih _ ?_ (fun e he => hsub e (List.mem_cons_of_mem _ he))
      have hstep : ReachC adjacency start neighbor (d + weight) :=
        ReachC.step hreach (hsub (neighbor, weight) (List.mem_cons_self _ _))
      constructor
      · intro e he
        rcases List.mem_cons.mp he with he1 | he2
        · subst he1
          exact ⟨d + weight, by simp, le_refl _⟩
        · obtain ⟨dv, hdv, hle⟩ := hB.q_dist e he2
          by_cases hn : neighbor = e.2
          · subst hn
            refine ⟨d + weight, by simp, ?_⟩
            have := improves_some himp hdv
            exact le_trans (le_of_lt this) hle
          · exact ⟨dv, by rw [dget_dset_ne _ _ _ _ hn]; exact hdv, hle⟩
      · intro e he
        rcases List.mem_cons.mp he with he1 | he2
        · subst he1
          exact hstep
        · exact hB.q_reach e he2
      · intro v dv hv
        by_cases hn : neighbor = v
        · subst hn
          rw [dget_dset_self] at hv
          cases hv
          exact hstep
        · rw [dget_dset_ne _ _ _ _ hn] at hv
          exact hB.d_reach v dv hv
      · intro v
        by_cases hn : neighbor = v
        · subst hn
          simp
        · rw [dget_dset_ne _ _ _ _ hn, dget_dset_ne _ _ _ _ hn]
          exact hB.dom_eq v
    · rw [if_neg himp]
      exact ih _ hB (fun e he => hsub e (List.mem_cons_of_mem _ he))

theorem binv_pop {adjacency : Adjacency} {start : String} {s : DState}
    {m : ℚ × String} {rest : List (ℚ × String)}
    (hB : BInv adjacency start s) (hpop : popMin s.queue = some (m, rest)) :
    BInv adjacency start { s with queue := rest } := by
  constructor
  · exact fun e he => hB.q_dist e (mem_rest_of_popMin hpop he)
  · exact fun e he => hB.q_reach e (mem_rest_of_popMin hpop he)
  · exact hB.d_reach
  · exact hB.dom_eq

theorem binv_dloop {adjacency : Adjacency} {start goal : String} (fuel : ℕ) (s : DState)
    (hB : BInv adjacency start s) :
    BInv adjacency start (dloop adjacency goal fuel s) := by
  induction fuel generalizing s with
  | zero => exact hB
  | succ fuel ih =>
    rw [dloop]
    cases hpop : popMin s.queue with
    | none => exact hB
    | some pr =>
      obtain ⟨⟨current_distance, node⟩, rest⟩ := pr
      dsimp only
      by_cases hgoal : node = goal
      · rw [if_pos hgoal]
        exact binv_pop hB hpop
      · rw [if_neg hgoal]
        by_cases hstale : stale s.distances node current_distance
        · rw [if_pos hstale]
          exact ih _ (binv_pop hB hpop)
        · rw [if_neg hstale]
          apply ih
          have hreach : ReachC adjacency start node current_distance :=
            hB.q_reach _ (popMin_mem hpop)
          exact binv_relax _ _ (binv_pop hB hpop) hreach (fun e he => he)

theorem binv_init (adjacency : Adjacency) (start : String) :
    BInv adjacency start ⟨[(0, start)], [(start, 0)], [(start, none)]⟩ := by
  constructor
  · intro e he
    rw [List.mem_singleton] at he
    subst he
    exact ⟨0, by simp [dget_cons], le_refl _⟩
  · intro e he
    rw [List.mem_singleton] at he
    subst he
    exact ReachC.refl
  · intro v dv hv
    rw [dget_cons] at hv
    by_cases h : start = v
    · subst h
      rw [if_pos rfl] at hv
      cases hv
      exact ReachC.refl
    · rw [if_neg h] at hv
      simp at hv
  · intro v
    rw [dget_cons, dget_cons]
    by_cases h : start = v
    · simp [h]
    · simp [h]

/-! ## Claim C8: unreachable goal -/

theorem dijkstra_unreachable_aux (start goal : String) (adjacency : Adjacency)
    (h : ∀ c, ¬ ReachC adjacency start goal c) :
    dijkstra start goal adjacency = (none, []) := by
  rw [dijkstra]
  have hB := @binv_dloop adjacency start goal
    (dijkstraFuel adjacency) _ (binv_init adjacency start)
  set t := dloop adjacency goal (dijkstraFuel adjacency)
    ⟨[(0, start)], [(start, 0)], [(start, none)]⟩ with ht
  have hdist : dget t.distances goal = none := by
    cases hd : dget t.distances goal with
    | none => rfl
    | some dg => exact absurd (hB.d_reach goal dg hd) (h dg)
  have hprev : dget t.previous goal = none := by
    cases hp : dget t.previous goal with
    | none => rfl
    | some x =>
      have := (hB.dom_eq goal).mpr (by rw [hp]; rfl)
      rw [hdist] at this
      simp at this
  rw [dijkstraPost, hprev]
  simp

/-- **C8.** If no walk connects `start` to `goal` in the adjacency, then
`_dijkstra` returns no cost and an empty path — a normal return value,
never an error and never a numeric cost. -/
theorem C8_unreachable (start goal : String) (adjacency : Adjacency)
    (h : ∀ c, ¬ ReachC adjacency start goal c) :
    dijkstra start goal adjacency = (none, []) :=
  dijkstra_unreachable_aux start goal adjacency h

/-- Witness for C8: a two-component adjacency where `b` is not reachable
from `a`. -/
theorem C8_witness :
    (∀ c, ¬ ReachC [("a", []), ("b", [])] "a" "b" c) ∧
    dijkstra "a" "b" [("a", []), ("b", [])] = (none, []) := by
  have hempty : ∀ u, adjGet [("a", []), ("b", [])] u = ([] : List (String × ℚ)) := by
    intro u
    unfold adjGet
    rcases hd : dget [("a", []), ("b", [])] u with _ | l
    · rfl
    · have := dget_eq_some_mem hd
      rcases List.mem_cons.mp this with h1 | h1
      · rw [(Prod.mk.injEq _ _ _ _).mp h1 |>.2]
        rfl
      · rcases List.mem_cons.mp h1 with h2 | h2
        · rw [(Prod.mk.injEq _ _ _ _).mp h2 |>.2]
          rfl
        · exact absurd h2 (List.not_mem_nil _)
  have honly : ∀ v c, ReachC [("a", []), ("b", [])] "a" v c → v = "a" := by
    intro v c h
    induction h with
    | refl => rfl
    | @step u c' v' w hr hm ih =>
      rw [hempty u] at hm
      exact absurd hm (List.not_mem_nil _)
  have hunreach : ∀ c, ¬ ReachC [("a", []), ("b", [])] "a" "b" c := by
    intro c h
    have := honly _ _ h
    exact absurd this (by decide)
  exact ⟨hunreach, C8_unreachable "a" "b" _ hunreach⟩

/-! ## Full Dijkstra loop invariant (non-negative weights) -/

/-- The predecessor chain from a node terminates at a `None` entry. -/
inductive ChainR (previous : List (String × Option String)) : String → Prop
  | base {v} : dget previous v = some none → ChainR previous v
  | step {v u} : dget previous v = some (some u) → ChainR previous u → ChainR previous v

/-- The full loop invariant of `_dijkstra` under non-negative weights. -/
structure FInv (adjacency : Adjacency) (start goal : String) (s : DState) : Prop where
  binv : BInv adjacency start s
  start_dist : dget s.distances start = some 0
  uniq_fresh : ∀ v dv, dget s.distances v = some dv → cnt s.queue (dv, v) ≤ 1
  settled_opt : ∀ v dv, dget s.distances v = some dv → (dv, v) ∉ s.queue →
      (∀ c, ReachC adjacency start v c → dv ≤ c) ∧
      (∀ e ∈ adjGet adjacency v, ∃ du, dget s.distances e.1 = some du ∧ du ≤ dv + e.2)
  goal_fresh : ∀ dg, dget s.distances goal = some dg → (dg, goal) ∈ s.queue
  prev_edge : ∀ v u, dget s.previous v = some (some u) → u ≠ v ∧
      ∃ du dv w, dget s.distances u = some du ∧ dget s.distances v = some dv ∧
        (v, w) ∈ adjGet adjacency u ∧ dv = du + w ∧
        (∀ c, ReachC adjacency start u c → du ≤ c)
  prev_none : ∀ v, dget s.previous v = some none → v = start
  prev_chain : ∀ v, (dget s.previous v).isSome → ChainR s.previous v

/-- Any cost reachable by a walk is at least the popped minimum `d`, unless
the walk's endpoint is already discovered with a distance at most the
walk's cost. -/
theorem pop_lb {adjacency : Adjacency} {start goal : String} {s : DState}
    (hw : NonnegSteps adjacency) (hF : FInv adjacency start goal s) {d : ℚ}
    (hmin : ∀ e ∈ s.queue, d ≤ e.1) :
    ∀ x c, ReachC adjacency start x c →
      d ≤ c ∨ ∃ dx, dget s.distances x = some dx ∧ dx ≤ c := by
  intro x c h
  induction h with
  | refl => exact Or.inr ⟨0, hF.start_dist, le_refl 0⟩
  | @step u c' v w hr hm ih =>
    have hw' : 0 ≤ w := hw _ _ _ hm
    rcases ih with h1 | ⟨du, hdu, hle⟩
    · exact Or.inl (le_trans h1 (by linarith))
    · by_cases hq : (du, u) ∈ s.queue
      · exact Or.inl (le_trans (hmin _ hq) (by linarith))
      · obtain ⟨_, hrel⟩ := hF.settled_opt u du hdu hq
        obtain ⟨dx, hdx, hdxle⟩ := hrel (v, w) hm
        exact Or.inr ⟨dx, hdx, by linarith⟩

/-- A freshly popped minimum entry carries the true shortest distance. -/
theorem pop_opt {adjacency : Adjacency} {start goal : String} {s : DState}
    (hw : NonnegSteps adjacency) (hF : FInv adjacency start goal s) {d : ℚ} {v : String}
    (hmin : ∀ e ∈ s.queue, d ≤ e.1)
    (hfresh : dget s.distances v = some d) :
    ∀ c, ReachC adjacency start v c → d ≤ c := by
  intro c h
  rcases pop_lb hw hF hmin v c h with h1 | ⟨dx, hdx, hle⟩
  · exact h1
  · rw [hfresh] at hdx
    cases hdx
    exact hle

theorem chainR_update {previous : List (String × Option String)} {nb : String}
    {pv : Option String}
    (hnopar : ∀ y, dget previous y = some (some nb) → False) :
    ∀ x, ChainR previous x → x ≠ nb → ChainR (dset previous nb pv) x := by
  intro x h
  induction h with
  | @base v hb =>
    intro hx
    exact ChainR.base (by rw [dget_dset_ne _ _ _ _ (Ne.symm hx)]; exact hb)
  | @step v u hvu hu ih =>
    intro hx
    have hun : u ≠ nb := fun he => hnopar v (he ▸ hvu)
    exact ChainR.step (by rw [dget_dset_ne _ _ _ _ (Ne.symm hx)]; exact hvu) (ih hun)

/-- A single successful relaxation preserves the basic invariant. -/
theorem binv_update {adjacency : Adjacency} {start : String} {s : DState}
    {nb : String} {dn : ℚ} {pv : Option String}
    (hB : BInv adjacency start s)
    (hreach_nb : ReachC adjacency start nb dn)
    (himp : improves s.distances nb dn) :
    BInv adjacency start
      ⟨(dn, nb) :: s.queue, dset s.distances nb dn, dset s.previous nb pv⟩ := by
  constructor
  · intro e he
    rcases List.mem_cons.mp he with he1 | he2
    · subst he1
      exact ⟨dn, by simp, le_refl _⟩
    · obtain ⟨dv, hdv, hle⟩ := hB.q_dist e he2
      by_cases hn : nb = e.2
      · subst hn
        exact ⟨dn, by simp, le_trans (le_of_lt (improves_some himp hdv)) hle⟩
      · exact ⟨dv, by rw [dget_dset_ne _ _ _ _ hn]; exact hdv, hle⟩
  · intro e he
    rcases List.mem_cons.mp he with he1 | he2
    · subst he1
      exact hreach_nb
    · exact hB.q_reach e he2
  · intro v dv hv
    by_cases hn : nb = v
    · subst hn
      rw [dget_dset_self] at hv
      cases hv
      exact hreach_nb
    · rw [dget_dset_ne _ _ _ _ hn] at hv
      exact hB.d_reach v dv hv
  · intro v
    by_cases hn : nb = v
    · subst hn
      simp
    · rw [dget_dset_ne _ _ _ _ hn, dget_dset_ne _ _ _ _ hn]
      exact hB.dom_eq v

/-- The invariant holding while the relaxation loop of a freshly popped
node `node` (with final distance `d`) is in progress. -/
structure RInv (adjacency : Adjacency) (start goal node : String) (d : ℚ) (s : DState) :
    Prop where
  binv : BInv adjacency start s
  start_dist : dget s.distances start = some 0
  uniq_fresh : ∀ v dv, dget s.distances v = some dv → cnt s.queue (dv, v) ≤ 1
  settled_opt' : ∀ v dv, dget s.distances v = some dv → (dv, v) ∉ s.queue → v ≠ node →
      (∀ c, ReachC adjacency start v c → dv ≤ c) ∧
      (∀ e ∈ adjGet adjacency v, ∃ du, dget s.distances e.1 = some du ∧ du ≤ dv + e.2)
  goal_fresh : ∀ dg, dget s.distances goal = some dg → (dg, goal) ∈ s.queue
  prev_edge : ∀ v u, dget s.previous v = some (some u) → u ≠ v ∧
      ∃ du dv w, dget s.distances u = some du ∧ dget s.distances v = some dv ∧
        (v, w) ∈ adjGet adjacency u ∧ dv = du + w ∧
        (∀ c, ReachC adjacency start u c → du ≤ c)
  prev_none : ∀ v, dget s.previous v = some none → v = start
  prev_chain : ∀ v, (dget s.previous v).isSome → ChainR s.previous v
  node_dist : dget s.distances node = some d
  node_not_q : (d, node) ∉ s.queue
  node_opt : ∀ c, ReachC adjacency start node c → d ≤ c

/-- One successful relaxation step preserves the relaxation invariant. -/
theorem rinv_update {adjacency : Adjacency} {start goal node : String} {d : ℚ} {s : DState}
    (hw : NonnegSteps adjacency)
    (hR : RInv adjacency start goal node d s)
    {nb : String} {w : ℚ}
    (hmem : (nb, w) ∈ adjGet adjacency node)
    (himp : improves s.distances nb (d + w)) :
    RInv adjacency start goal node d
      ⟨(d + w, nb) :: s.queue, dset s.distances nb (d + w),
        dset s.previous nb (some node)⟩ ∧ nb ≠ node := by
  have hw0 : 0 ≤ w := hw _ _ _ hmem
  have hreach_nb : ReachC adjacency start nb (d + w) :=
    ReachC.step (hR.binv.d_reach node d hR.node_dist) hmem
  have hnbnode : nb ≠ node := by
    intro he
    subst he
    have := improves_some himp hR.node_dist
    linarith
  have hnb_not_opt : ∀ dnb, dget s.distances nb = some dnb →
      (∀ c, ReachC adjacency start nb c → dnb ≤ c) → False := by
    intro dnb hdnb hopt
    have h1 := improves_some himp hdnb
    have h2 := hopt _ hreach_nb
    linarith
  have hnb_start : nb ≠ start := by
    intro he
    subst he
    have h1 := improves_some himp hR.start_dist
    have h2 := reach_nonneg hw hreach_nb
    linarith
  have hnopar : ∀ y, dget s.previous y = some (some nb) → False := by
    intro y hy
    obtain ⟨hne, du, dv, w', hdu, hdv, hm', he, hopt⟩ := hR.prev_edge y nb hy
    exact hnb_not_opt du hdu hopt
  have hextends : ∀ v dv, dget s.distances v = some dv →
      ∃ dv', dget (dset s.distances nb (d + w)) v = some dv' ∧ dv' ≤ dv := by
    intro v dv hv
    by_cases hn : nb = v
    · subst hn
      exact ⟨d + w, dget_dset_self _ _ _, le_of_lt (improves_some himp hv)⟩
    · exact ⟨dv, by rw [dget_dset_ne _ _ _ _ hn]; exact hv, le_refl _⟩
  refine ⟨⟨binv_update hR.binv hreach_nb himp, ?_, ?_, ?_, ?_, ?_, ?_, ?_, ?_, ?_, ?_⟩,
    hnbnode⟩
  · rw [dget_dset_ne _ _ _ _ hnb_start]
    exact hR.start_dist
  · intro v dv hdv
    by_cases hn : nb = v
    · subst hn
      rw [dget_dset_self] at hdv
      cases hdv
      rw [cnt, if_pos rfl]
      have hnm : (d + w, nb) ∉ s.queue := by
        intro hm'
        obtain ⟨dv0, hdv0, hle0⟩ := hR.binv.q_dist _ hm'
        have := improves_some himp hdv0
        simp only at hle0
        linarith
      have : cnt s.queue (d + w, nb) = 0 := by
        by_contra hc
        exact hnm (cnt_pos_iff_mem.mp (Nat.pos_of_ne_zero hc))
      omega
    · rw [dget_dset_ne _ _ _ _ hn] at hdv
      rw [cnt, if_neg (by intro he; rw [Prod.mk.injEq] at he; exact hn he.2)]
      have := hR.uniq_fresh v dv hdv
      omega
  · intro v dv hdv hnq hvnode
    by_cases hn : nb = v
    · subst hn
      rw [dget_dset_self] at hdv
      cases hdv
      exact absurd (List.mem_cons_self _ _) hnq
    · rw [dget_dset_ne _ _ _ _ hn] at hdv
      have hnq' : (dv, v) ∉ s.queue := fun hm' => hnq (List.mem_cons_of_mem _ hm')
      obtain ⟨hopt, hrel⟩ := hR.settled_opt' v dv hdv hnq' hvnode
      refine ⟨hopt, ?_⟩
      intro e he
      obtain ⟨du, hdu, hle⟩ := hrel e he
      obtain ⟨du', hdu', hle'⟩ := hextends _ _ hdu
      exact ⟨du', hdu', by linarith⟩
  · intro dg hdg
    by_cases hn : nb = goal
    · subst hn
      rw [dget_dset_self] at hdg
      cases hdg
      exact List.mem_cons_self _ _
    · rw [dget_dset_ne _ _ _ _ hn] at hdg
      exact List.mem_cons_of_mem _ (hR.goal_fresh dg hdg)
  · intro v u hvu
    by_cases hn : nb = v
    · subst hn
      rw [dget_dset_self] at hvu
      cases hvu
      refine ⟨fun he => hnbnode he.symm, d, d + w, w, ?_, dget_dset_self _ _ _, hmem, rfl,
        hR.node_opt⟩
      rw [dget_dset_ne _ _ _ _ hnbnode]
      exact hR.node_dist
    · rw [dget_dset_ne _ _ _ _ hn] at hvu
      obtain ⟨hne, du, dv', w', hdu, hdv', hm', heq, hopt⟩ := hR.prev_edge v u hvu
      have hun : nb ≠ u := by
        intro he
        subst he
        exact hnopar v hvu
      refine ⟨hne, du, dv', w', ?_, ?_, hm', heq, hopt⟩
      · rw [dget_dset_ne _ _ _ _ hun]
        exact hdu
      · rw [dget_dset_ne _ _ _ _ hn]
        exact hdv'
  · intro v hv
    by_cases hn : nb = v
    · subst hn
      rw [dget_dset_self] at hv
      simp at hv
    · rw [dget_dset_ne _ _ _ _ hn] at hv
      exact hR.prev_none v hv
  · intro v hsome
    by_cases hn : nb = v
    · subst hn
      refine ChainR.step (dget_dset_self _ _ _) ?_
      have hnodesome : (dget s.previous node).isSome := by
        rw [← hR.binv.dom_eq]
        rw [hR.node_dist]
        rfl
      exact chainR_update hnopar node (hR.prev_chain node hnodesome) (fun he => hnbnode he.symm)
    · rw [dget_dset_ne _ _ _ _ hn] at hsome
      exact chainR_update hnopar v (hR.prev_chain v hsome) (fun he => hn he.symm)
  · rw [dget_dset_ne _ _ _ _ hnbnode]
    exact hR.node_dist
  · intro hm'
    rcases List.mem_cons.mp hm' with h1 | h2
    · rw [Prod.mk.injEq] at h1
      exact hnbnode h1.2.symm
    · exact hR.node_not_q h2
  · exact hR.node_opt

/-- The whole relaxation loop preserves the relaxation invariant; moreover
it relaxes every processed neighbor, pushes at most one entry per neighbor,
only lowers distances, and keeps settled nodes settled. -/
theorem relax_preserve {adjacency : Adjacency} {start goal node : String} {d : ℚ}
    (hw : NonnegSteps adjacency) :
    ∀ (nbrs : List (String × ℚ)) (s : DState),
    RInv adjacency start goal node d s →
    (∀ e ∈ nbrs, e ∈ adjGet adjacency node) →
    RInv adjacency start goal node d (relaxNeighbors node d nbrs s) ∧
    (∀ e ∈ nbrs, ∃ du,
      dget (relaxNeighbors node d nbrs s).distances e.1 = some du ∧ du ≤ d + e.2) ∧
    (relaxNeighbors node d nbrs s).queue.length ≤ s.queue.length + nbrs.length ∧
    (∀ v dv, dget s.distances v = some dv → (dv, v) ∉ s.queue →
      dget (relaxNeighbors node d nbrs s).distances v = some dv ∧
        (dv, v) ∉ (relaxNeighbors node d nbrs s).queue) ∧
    (∀ v dv, dget s.distances v = some dv →
      ∃ dv', dget (relaxNeighbors node d nbrs s).distances v = some dv' ∧ dv' ≤ dv) := by
  intro nbrs
  induction nbrs with
  | nil =>
    intro s hR _
    refine ⟨hR, by simp, le_of_eq (by rw [relaxNeighbors]; simp), ?_, ?_⟩
    · intro v dv hdv hnq
      exact ⟨hdv, hnq⟩
    · intro v dv hdv
      exact ⟨dv, hdv, le_refl _⟩
  | cons nbp rest ih =>
    intro s hR hsub
    obtain ⟨nb, w⟩ := nbp
    have hmem : (nb, w) ∈ adjGet adjacency node := hsub _ (List.mem_cons_self _ _)
    have hsub' : ∀ e ∈ rest, e ∈ adjGet adjacency node :=
      fun e he => hsub e (List.mem_cons_of_mem _ he)
    rw [relaxNeighbors]
    by_cases himp : improves s.distances nb (d + w)
    · rw [if_pos himp]
      obtain ⟨hR', hnbnode⟩ := rinv_update hw hR hmem himp
      set s1 : DState := ⟨(d + w, nb) :: s.queue, dset s.distances nb (d + w),
        dset s.previous nb (some node)⟩ with hs1
      obtain ⟨hRf, hdone, hlen, hsettled, hext⟩ := ih s1 hR' hsub'
      refine ⟨hRf, ?_, ?_, ?_, ?_⟩
      · intro e he
        rcases List.mem_cons.mp he with he1 | he2
        · subst he1
          obtain ⟨dv', hdv', hle'⟩ := hext nb (d + w) (dget_dset_self _ _ _)
          exact ⟨dv', hdv', le_trans hle' (le_refl _)⟩
        · exact hdone e he2
      · have : s1.queue.length = s.queue.length + 1 := rfl
        rw [List.length_cons]
        omega
      · intro v dv hdv hnq
        have hvnb : nb ≠ v := by
          intro he
          subst he
          by_cases hvn : nb = node
          · subst hvn
            rw [hR.node_dist] at hdv
            cases hdv
            have := improves_some himp hR.node_dist
            have := hw _ _ _ hmem
            linarith
          · obtain ⟨hopt, _⟩ := hR.settled_opt' nb dv hdv hnq (fun he' => hvn he')
            have h1 := improves_some himp hdv
            have h2 := hopt _ (ReachC.step (hR.binv.d_reach node d hR.node_dist) hmem)
            linarith
        have hdv1 : dget s1.distances v = some dv := by
          show dget (dset s.distances nb (d + w)) v = some dv
          rw [dget_dset_ne _ _ _ _ hvnb]
          exact hdv
        have hnq1 : (dv, v) ∉ s1.queue := by
          intro hm'
          rcases List.mem_cons.mp hm' with h1 | h2
          · rw [Prod.mk.injEq] at h1
            exact hvnb h1.2.symm
          · exact hnq h2
        exact hsettled v dv hdv1 hnq1
      · intro v dv hdv
        by_cases hn : nb = v
        · subst hn
          obtain ⟨dv', hdv', hle'⟩ := hext nb (d + w) (dget_dset_self _ _ _)
          exact ⟨dv', hdv', le_trans hle' (le_of_lt (improves_some himp hdv))⟩
        · refine hext v dv ?_ |>.imp fun dv' h => ⟨h.1, h.2⟩
          show dget (dset s.distances nb (d + w)) v = some dv
          rw [dget_dset_ne _ _ _ _ hn]
          exact hdv
    · rw [if_neg himp]
      obtain ⟨hRf, hdone, hlen, hsettled, hext⟩ := ih s hR hsub'
      refine ⟨hRf, ?_, by rw [List.length_cons]; omega, hsettled, hext⟩
      intro e he
      rcases List.mem_cons.mp he with he1 | he2
      · subst he1
        obtain ⟨dv0, hdv0, hle0⟩ := not_improves_some himp
        obtain ⟨dv', hdv', hle'⟩ := hext _ _ hdv0
        exact ⟨dv', hdv', by linarith⟩
      · exact hdone e he2

theorem finv_init (adjacency : Adjacency) (start goal : String) :
    FInv adjacency start goal ⟨[(0, start)], [(start, 0)], [(start, none)]⟩ := by
  have hd : ∀ v dv, dget [(start, (0 : ℚ))] v = some dv → v = start ∧ dv = 0 := by
    intro v dv hv
    rw [dget_cons] at hv
    by_cases h : start = v
    · rw [if_pos h] at hv
      cases hv
      exact ⟨h.symm, rfl⟩
    · rw [if_neg h] at hv
      simp at hv
  refine ⟨binv_init adjacency start, by simp [dget_cons], ?_, ?_, ?_, ?_, ?_, ?_⟩
  · intro v dv hv
    obtain ⟨hv1, hv2⟩ := hd v dv hv
    subst hv1
    subst hv2
    simp [cnt]
  · intro v dv hv hnq
    obtain ⟨hv1, hv2⟩ := hd v dv hv
    subst hv1
    subst hv2
    exact absurd (List.mem_singleton.mpr rfl) hnq
  · intro dg hdg
    obtain ⟨hv1, hv2⟩ := hd goal dg hdg
    subst hv2
    rw [hv1]
    exact List.mem_singleton.mpr rfl
  · intro v u hvu
    rw [dget_cons] at hvu
    by_cases h : start = v
    · rw [if_pos h] at hvu
      simp at hvu
    · rw [if_neg h] at hvu
      simp at hvu
  · intro v hv
    rw [dget_cons] at hv
    by_cases h : start = v
    · exact h.symm
    · rw [if_neg h] at hv
      simp at hv
  · intro v hv
    rw [dget_cons] at hv
    by_cases h : start = v
    · subst h
      exact ChainR.base (by simp [dget_cons])
    · rw [if_neg h] at hv
      simp at hv

/-- A stale pop (of a non-goal node) preserves the full invariant. -/
theorem finv_stale_pop {adjacency : Adjacency} {start goal : String} {s : DState}
    {d : ℚ} {node : String} {rest : List (ℚ × String)}
    (hF : FInv adjacency start goal s)
    (hpop : popMin s.queue = some ((d, node), rest))
    (hgoal : node ≠ goal)
    (hstale : stale s.distances node d) :
    FInv adjacency start goal { s with queue := rest } := by
  obtain ⟨dvn, hdvn, hlt⟩ : ∃ dvn, dget s.distances node = some dvn ∧ dvn < d := by
    unfold stale at hstale
    cases hd : dget s.distances node with
    | none => rw [hd] at hstale; exact absurd hstale (by simp)
    | some dvn => rw [hd] at hstale; exact ⟨dvn, rfl, hstale⟩
  refine ⟨binv_pop hF.binv hpop, hF.start_dist, ?_, ?_, ?_, hF.prev_edge, hF.prev_none,
    hF.prev_chain⟩
  · intro v dv hdv
    show cnt rest (dv, v) ≤ 1
    have h1 := cnt_rest_of_popMin (y := (dv, v)) hpop
    have h2 := hF.uniq_fresh v dv hdv
    omega
  · intro v dv hdv hnq
    by_cases hq : (dv, v) ∈ s.queue
    · exfalso
      have h1 := cnt_rest_of_popMin (y := (dv, v)) hpop
      have h2 : 0 < cnt s.queue (dv, v) := cnt_pos_iff_mem.mpr hq
      have h3 : cnt rest (dv, v) = 0 := by
        by_contra hc
        exact hnq (cnt_pos_iff_mem.mp (Nat.pos_of_ne_zero hc))
      have hm : ((d, node) : ℚ × String) = (dv, v) := by
        by_contra hc
        rw [if_neg hc] at h1
        omega
      rw [Prod.mk.injEq] at hm
      obtain ⟨hm1, hm2⟩ := hm
      subst hm2
      rw [hdvn] at hdv
      cases hdv
      exact absurd hm1 (ne_of_gt hlt)
    · exact hF.settled_opt v dv hdv hq
  · intro dg hdg
    have hmem := hF.goal_fresh dg hdg
    have h1 := cnt_rest_of_popMin (y := ((dg : ℚ), goal)) hpop
    have h2 : 0 < cnt s.queue (dg, goal) := cnt_pos_iff_mem.mpr hmem
    have hne : ((d, node) : ℚ × String) ≠ (dg, goal) := by
      intro he
      rw [Prod.mk.injEq] at he
      exact hgoal he.2
    rw [if_neg hne] at h1
    show ((dg : ℚ), goal) ∈ rest
    have h3 : 0 < cnt rest (dg, goal) := by omega
    exact cnt_pos_iff_mem.mp h3

/-- A fresh pop (of a non-goal node) establishes the relaxation invariant
and identifies the popped priority with the recorded distance. -/
theorem finv_fresh_pop {adjacency : Adjacency} {start goal : String} {s : DState}
    {d : ℚ} {node : String} {rest : List (ℚ × String)}
    (hw : NonnegSteps adjacency)
    (hF : FInv adjacency start goal s)
    (hpop : popMin s.queue = some ((d, node), rest))
    (hgoal : node ≠ goal)
    (hnstale : ¬ stale s.distances node d) :
    RInv adjacency start goal node d { s with queue := rest } ∧
      dget s.distances node = some d := by
  obtain ⟨dvn, hdvn, hle⟩ := hF.binv.q_dist _ (popMin_mem hpop)
  simp only at hdvn hle
  have hfresh : dget s.distances node = some d := by
    unfold stale at hnstale
    rw [hdvn] at hnstale
    have : d ≤ dvn := le_of_not_lt hnstale
    have : dvn = d := le_antisymm hle this
    rw [this] at hdvn
    exact hdvn
  have hopt : ∀ c, ReachC adjacency start node c → d ≤ c :=
    pop_opt hw hF (fun e he => popMin_min hpop e he) hfresh
  have hnotq : (d, node) ∉ rest := by
    have h1 := cnt_rest_of_popMin (y := ((d : ℚ), node)) hpop
    have h2 := hF.uniq_fresh node d hfresh
    rw [if_pos rfl] at h1
    intro hm
    have := cnt_pos_iff_mem.mpr hm
    omega
  refine ⟨⟨binv_pop hF.binv hpop, hF.start_dist, ?_, ?_, ?_, hF.prev_edge, hF.prev_none,
    hF.prev_chain, hfresh, hnotq, hopt⟩, hfresh⟩
  · intro v dv hdv
    show cnt rest (dv, v) ≤ 1
    have h1 := cnt_rest_of_popMin (y := (dv, v)) hpop
    have h2 := hF.uniq_fresh v dv hdv
    omega
  · intro v dv hdv hnq hvnode
    by_cases hq : (dv, v) ∈ s.queue
    · exfalso
      have h1 := cnt_rest_of_popMin (y := (dv, v)) hpop
      have h2 : 0 < cnt s.queue (dv, v) := cnt_pos_iff_mem.mpr hq
      have h3 : cnt rest (dv, v) = 0 := by
        by_contra hc
        exact hnq (cnt_pos_iff_mem.mp (Nat.pos_of_ne_zero hc))
      have hm : ((d, node) : ℚ × String) = (dv, v) := by
        by_contra hc
        rw [if_neg hc] at h1
        omega
      rw [Prod.mk.injEq] at hm
      exact hvnode hm.2.symm
    · exact hF.settled_opt v dv hdv hq
  · intro dg hdg
    have hmem := hF.goal_fresh dg hdg
    have h1 := cnt_rest_of_popMin (y := ((dg : ℚ), goal)) hpop
    have h2 : 0 < cnt s.queue (dg, goal) := cnt_pos_iff_mem.mpr hmem
    have hne : ((d, node) : ℚ × String) ≠ (dg, goal) := by
      intro he
      rw [Prod.mk.injEq] at he
      exact hgoal he.2
    rw [if_neg hne] at h1
    show ((dg : ℚ), goal) ∈ rest
    have h3 : 0 < cnt rest (dg, goal) := by omega
    exact cnt_pos_iff_mem.mp h3

/-- After the relaxation loop finishes, the full invariant holds again. -/
theorem rinv_to_finv {adjacency : Adjacency} {start goal node : String} {d : ℚ}
    {s : DState}
    (hR : RInv adjacency start goal node d s)
    (hAll : ∀ e ∈ adjGet adjacency node,
      ∃ du, dget s.distances e.1 = some du ∧ du ≤ d + e.2) :
    FInv adjacency start goal s := by
  refine ⟨hR.binv, hR.start_dist, hR.uniq_fresh, ?_, hR.goal_fresh, hR.prev_edge,
    hR.prev_none, hR.prev_chain⟩
  intro v dv hdv hnq
  by_cases hvn : v = node
  · subst hvn
    rw [hR.node_dist] at hdv
    cases hdv
    exact ⟨hR.node_opt, hAll⟩
  · exact hR.settled_opt' v dv hdv hnq hvn

/-! ## Termination measure for the main loop -/

/-- A node is settled when its recorded distance has no fresh queue entry. -/
def settledB (distances : List (String × ℚ)) (queue : List (ℚ × String))
    (v : String) : Bool :=
  match dget distances v with
  | none => false
  | some dv => decide ((dv, v) ∉ queue)

theorem settledB_true_iff {distances : List (String × ℚ)} {queue : List (ℚ × String)}
    {v : String} :
    settledB distances queue v = true ↔
      ∃ dv, dget distances v = some dv ∧ (dv, v) ∉ queue := by
  unfold settledB
  cases hd : dget distances v with
  | none => simp
  | some dv => simp

/-- Total degree of the not-yet-settled adjacency keys. -/
def unsettledWeight (adjacency : Adjacency) (s : DState) : ℕ :=
  ((adjacency.filter (fun p => !(settledB s.distances s.queue p.1))).map
    (fun p => p.2.length)).sum

/-- Decreasing measure: queue size plus unsettled degree. -/
def measureM (adjacency : Adjacency) (s : DState) : ℕ :=
  s.queue.length + unsettledWeight adjacency s

theorem sum_filter_mono {α : Type} (l : List α) (f : α → ℕ) (p q : α → Bool)
    (h : ∀ x ∈ l, q x = true → p x = true) :
    ((l.filter q).map f).sum ≤ ((l.filter p).map f).sum := by
  induction l with
  | nil => simp
  | cons x xs ih =>
    have ih' := ih (fun y hy => h y (List.mem_cons_of_mem _ hy))
    rw [List.filter_cons, List.filter_cons]
    cases hq : q x with
    | true =>
      rw [if_pos rfl, if_pos (h x (List.mem_cons_self _ _) hq)]
      rw [List.map_cons, List.map_cons, List.sum_cons, List.sum_cons]
      omega
    | false =>
      rw [if_neg Bool.false_ne_true]
      cases hp : p x with
      | true =>
        rw [if_pos rfl, List.map_cons, List.sum_cons]
        omega
      | false =>
        rw [if_neg Bool.false_ne_true]
        exact ih'

theorem sum_filter_drop {α : Type} (l : List α) (f : α → ℕ) (p q : α → Bool)
    (h : ∀ x ∈ l, q x = true → p x = true) {x : α} (hx : x ∈ l)
    (hpx : p x = true) (hqx : q x = false) :
    ((l.filter q).map f).sum + f x ≤ ((l.filter p).map f).sum := by
  induction l with
  | nil => simp at hx
  | cons y ys ih =>
    rw [List.filter_cons, List.filter_cons]
    rcases List.mem_cons.mp hx with h1 | h1
    · subst h1
      rw [if_neg (by rw [hqx]; exact Bool.false_ne_true), if_pos hpx]
      rw [List.map_cons, List.sum_cons]
      have := sum_filter_mono ys f p q (fun z hz => h z (List.mem_cons_of_mem _ hz))
      omega
    · have ih' := ih (fun z hz => h z (List.mem_cons_of_mem _ hz)) h1
      cases hq : q y with
      | true =>
        rw [if_pos rfl, if_pos (h y (List.mem_cons_self _ _) hq)]
        rw [List.map_cons, List.map_cons, List.sum_cons, List.sum_cons]
        omega
      | false =>
        rw [if_neg Bool.false_ne_true]
        cases hp : p y with
        | true =>
          rw [if_pos rfl, List.map_cons, List.sum_cons]
          omega
        | false =>
          rw [if_neg Bool.false_ne_true]
          exact ih'

theorem measure_stale {adjacency : Adjacency} {s : DState} {d : ℚ} {node : String}
    {rest : List (ℚ × String)}
    (hpop : popMin s.queue = some ((d, node), rest))
    (hstale : stale s.distances node d) :
    measureM adjacency { s with queue := rest } < measureM adjacency s := by
  obtain ⟨dvn, hdvn, hlt⟩ : ∃ dvn, dget s.distances node = some dvn ∧ dvn < d := by
    unfold stale at hstale
    cases hd : dget s.distances node with
    | none => rw [hd] at hstale; exact absurd hstale (by simp)
    | some dvn => rw [hd] at hstale; exact ⟨dvn, rfl, hstale⟩
  have hlen : s.queue.length = rest.length + 1 := by
    have := (popMin_perm hpop).length_eq
    rw [List.length_cons] at this
    omega
  have hsB : ∀ v, settledB s.distances rest v = settledB s.distances s.queue v := by
    intro v
    unfold settledB
    cases hd : dget s.distances v with
    | none => rfl
    | some dv =>
      simp only
      have hne : ((d, node) : ℚ × String) ≠ (dv, v) := by
        intro he
        rw [Prod.mk.injEq] at he
        obtain ⟨he1, he2⟩ := he
        subst he2
        rw [hdvn] at hd
        cases hd
        exact absurd he1.symm (ne_of_lt hlt)
      have hcnt := cnt_rest_of_popMin (y := (dv, v)) hpop
      rw [if_neg hne] at hcnt
      have hiff : ((dv, v) ∈ rest) ↔ ((dv, v) ∈ s.queue) := by
        rw [← cnt_pos_iff_mem, ← cnt_pos_iff_mem]
        omega
      exact decide_eq_decide.mpr (not_congr hiff)
  have hUW : unsettledWeight adjacency { s with queue := rest } =
      unsettledWeight adjacency s := by
    unfold unsettledWeight
    congr 1
    apply congrArg
    apply List.filter_congr
    intro p _
    show (!(settledB s.distances rest p.1)) = (!(settledB s.distances s.queue p.1))
    rw [hsB p.1]
  unfold measureM
  rw [hUW]
  simp only
  omega

theorem measure_fresh {adjacency : Adjacency} {start goal : String} {s : DState}
    {d : ℚ} {node : String} {rest : List (ℚ × String)}
    (hw : NonnegSteps adjacency)
    (hF : FInv adjacency start goal s)
    (hpop : popMin s.queue = some ((d, node), rest))
    (hgoal : node ≠ goal)
    (hnstale : ¬ stale s.distances node d) :
    measureM adjacency
      (relaxNeighbors node d (adjGet adjacency node) { s with queue := rest }) <
      measureM adjacency s := by
  obtain ⟨hR, hfresh⟩ := finv_fresh_pop hw hF hpop hgoal hnstale
  obtain ⟨hRf, hdone, hlen, hsettled, hext⟩ :=
    relax_preserve hw (adjGet adjacency node) _ hR (fun e he => he)
  set s2 := relaxNeighbors node d (adjGet adjacency node) { s with queue := rest } with hs2
  have hqlen : s.queue.length = rest.length + 1 := by
    have := (popMin_perm hpop).length_eq
    rw [List.length_cons] at this
    omega
  have hmono : ∀ v, settledB s.distances s.queue v = true →
      settledB s2.distances s2.queue v = true := by
    intro v hv
    obtain ⟨dv, hdv, hnq⟩ := settledB_true_iff.mp hv
    have hnq1 : (dv, v) ∉ rest := fun hm => hnq (mem_rest_of_popMin hpop hm)
    obtain ⟨hd2, hq2⟩ := hsettled v dv hdv hnq1
    exact settledB_true_iff.mpr ⟨dv, hd2, hq2⟩
  have hnode_s : settledB s.distances s.queue node = false := by
    unfold settledB
    rw [hfresh]
    simp only
    rw [decide_eq_false_iff_not]
    exact not_not_intro (popMin_mem hpop)
  have hnode_s2 : settledB s2.distances s2.queue node = true :=
    settledB_true_iff.mpr ⟨d, hRf.node_dist, hRf.node_not_q⟩
  have hq : ∀ y : String × List (String × ℚ),
      (!(settledB s2.distances s2.queue y.1)) = true →
      (!(settledB s.distances s.queue y.1)) = true := by
    intro y hy
    rw [Bool.not_eq_true'] at hy ⊢
    by_cases hs : settledB s.distances s.queue y.1 = true
    · rw [hmono y.1 hs] at hy
      exact absurd hy (by simp)
    · simpa using hs
  cases hadj : dget adjacency node with
  | none =>
    have hempty : adjGet adjacency node = [] := by
      unfold adjGet
      rw [hadj]
      rfl
    have hUW : unsettledWeight adjacency s2 ≤ unsettledWeight adjacency s := by
      unfold unsettledWeight
      exact sum_filter_mono adjacency (fun p => p.2.length) _ _
        (fun x _ hxq => hq x hxq)
    have hq2 : s2.queue.length ≤ rest.length := by
      rw [hs2, hempty]
      exact le_of_eq rfl
    unfold measureM
    omega
  | some nbrs =>
    have hmem : (node, nbrs) ∈ adjacency := dget_eq_some_mem hadj
    have hdeg : (adjGet adjacency node).length = nbrs.length := by
      unfold adjGet
      rw [hadj]
      rfl
    have hUW : unsettledWeight adjacency s2 + nbrs.length ≤
        unsettledWeight adjacency s := by
      unfold unsettledWeight
      have := sum_filter_drop adjacency (fun p => p.2.length)
        (fun pr => !(settledB s.distances s.queue pr.1))
        (fun pr => !(settledB s2.distances s2.queue pr.1))
        (fun x _ hxq => hq x hxq) hmem
        (by show (!settledB s.distances s.queue node) = true
            rw [hnode_s]
            rfl)
        (by show (!settledB s2.distances s2.queue node) = false
            rw [hnode_s2]
            rfl)
      simpa using this
    have hq2 : s2.queue.length ≤ rest.length + nbrs.length := by
      have h1 := hlen
      rw [hdeg] at h1
      simpa using h1
    unfold measureM
    omega

/-! ## Main loop lemmas -/

/-- With an exhausted queue, every reachable node is already discovered;
hence the goal (which always retains a fresh entry while the loop runs)
cannot be reachable. -/
theorem queue_empty_unreach {adjacency : Adjacency} {start goal : String} {s : DState}
    (hF : FInv adjacency start goal s) (hq : s.queue = []) :
    ∀ c, ¬ ReachC adjacency start goal c := by
  have hdisc : ∀ x c, ReachC adjacency start x c → (dget s.distances x).isSome := by
    intro x c h
    induction h with
    | refl => rw [hF.start_dist]; rfl
    | @step u c' v w hr hm ih =>
      obtain ⟨du, hdu⟩ := Option.isSome_iff_exists.mp ih
      have hnq : (du, u) ∉ s.queue := by rw [hq]; exact List.not_mem_nil _
      obtain ⟨_, hrel⟩ := hF.settled_opt u du hdu hnq
      obtain ⟨dx, hdx, _⟩ := hrel (v, w) hm
      rw [hdx]
      rfl
  intro c h
  obtain ⟨dg, hdg⟩ := Option.isSome_iff_exists.mp (hdisc goal c h)
  have := hF.goal_fresh dg hdg
  rw [hq] at this
  exact absurd this (List.not_mem_nil _)

/-- When the goal is popped, its recorded distance is the popped priority
and is optimal. -/
theorem break_goal {adjacency : Adjacency} {start goal : String} {s : DState}
    {d : ℚ} {rest : List (ℚ × String)}
    (hw : NonnegSteps adjacency) (hF : FInv adjacency start goal s)
    (hpop : popMin s.queue = some ((d, goal), rest)) :
    dget s.distances goal = some d ∧ ∀ c, ReachC adjacency start goal c → d ≤ c := by
  obtain ⟨dg, hdg, hle⟩ := hF.binv.q_dist _ (popMin_mem hpop)
  simp only at hdg hle
  have hmem := hF.goal_fresh dg hdg
  have hge := popMin_min hpop _ hmem
  simp only at hge
  have : dg = d := le_antisymm hle hge
  subst this
  exact ⟨hdg, pop_opt hw hF (fun e he => popMin_min hpop e he) hdg⟩

/-- With enough fuel, the loop either proves the goal unreachable or leaves
its optimal distance recorded. -/
theorem dloop_goal {adjacency : Adjacency} {start goal : String}
    (hw : NonnegSteps adjacency) :
    ∀ (fuel : ℕ) (s : DState), FInv adjacency start goal s →
      measureM adjacency s ≤ fuel →
      (∃ c0, ReachC adjacency start goal c0) →
      ∃ dg, dget (dloop adjacency goal fuel s).distances goal = some dg ∧
        ∀ c, ReachC adjacency start goal c → dg ≤ c := by
  intro fuel
  induction fuel with
  | zero =>
    intro s hF hm hreach
    obtain ⟨c0, hc0⟩ := hreach
    have hq : s.queue = [] := by
      unfold measureM at hm
      rw [Nat.le_zero] at hm
      exact List.length_eq_zero.mp (by omega)
    exact absurd hc0 (queue_empty_unreach hF hq c0)
  | succ fuel ih =>
    intro s hF hm hreach
    rw [dloop]
    cases hpop : popMin s.queue with
    | none =>
      obtain ⟨c0, hc0⟩ := hreach
      have hq : s.queue = [] := (popMin_eq_none_iff _).mp hpop
      exact absurd hc0 (queue_empty_unreach hF hq c0)
    | some pr =>
      obtain ⟨⟨d, node⟩, rest⟩ := pr
      dsimp only
      by_cases hgoal : node = goal
      · rw [if_pos hgoal]
        subst hgoal
        obtain ⟨hd, hopt⟩ := break_goal hw hF hpop
        exact ⟨d, hd, hopt⟩
      · rw [if_neg hgoal]
        by_cases hstale : stale s.distances node d
        · rw [if_pos hstale]
          have hdec : measureM adjacency _ < measureM adjacency s := measure_stale hpop hstale
          exact ih _ (finv_stale_pop hF hpop hgoal hstale) (by omega) hreach
        · rw [if_neg hstale]
          obtain ⟨hR, hfresh⟩ := finv_fresh_pop hw hF hpop hgoal hstale
          obtain ⟨hRf, hdone, _, _, _⟩ :=
            relax_preserve hw (adjGet adjacency node) _ hR (fun e he => he)
          have hF2 := rinv_to_finv hRf hdone
          have hdec := measure_fresh hw hF hpop hgoal hstale
          exact ih _ hF2 (by omega) hreach

/-- The queue-independent facts of the invariant, which also survive the
`break` on reaching the goal. -/
structure CoreInv (adjacency : Adjacency) (start : String) (s : DState) : Prop where
  d_reach : ∀ v dv, dget s.distances v = some dv → ReachC adjacency start v dv
  dom_eq : ∀ v, (dget s.distances v).isSome ↔ (dget s.previous v).isSome
  start_dist : dget s.distances start = some 0
  prev_edge : ∀ v u, dget s.previous v = some (some u) → u ≠ v ∧
      ∃ du dv w, dget s.distances u = some du ∧ dget s.distances v = some dv ∧
        (v, w) ∈ adjGet adjacency u ∧ dv = du + w ∧
        (∀ c, ReachC adjacency start u c → du ≤ c)
  prev_none : ∀ v, dget s.previous v = some none → v = start
  prev_chain : ∀ v, (dget s.previous v).isSome → ChainR s.previous v

theorem FInv.core {adjacency : Adjacency} {start goal : String} {s : DState}
    (hF : FInv adjacency start goal s) : CoreInv adjacency start s :=
  ⟨hF.binv.d_reach, hF.binv.dom_eq, hF.start_dist, hF.prev_edge, hF.prev_none,
    hF.prev_chain⟩

theorem dloop_core {adjacency : Adjacency} {start goal : String}
    (hw : NonnegSteps adjacency) :
    ∀ (fuel : ℕ) (s : DState), FInv adjacency start goal s →
      CoreInv adjacency start (dloop adjacency goal fuel s) := by
  intro fuel
  induction fuel with
  | zero => exact fun s hF => hF.core
  | succ fuel ih =>
    intro s hF
    rw [dloop]
    cases hpop : popMin s.queue with
    | none => exact hF.core
    | some pr =>
      obtain ⟨⟨d, node⟩, rest⟩ := pr
      dsimp only
      by_cases hgoal : node = goal
      · rw [if_pos hgoal]
        exact ⟨hF.binv.d_reach, hF.binv.dom_eq, hF.start_dist, hF.prev_edge,
          hF.prev_none, hF.prev_chain⟩
      · rw [if_neg hgoal]
        by_cases hstale : stale s.distances node d
        · rw [if_pos hstale]
          exact ih _ (finv_stale_pop hF hpop hgoal hstale)
        · rw [if_neg hstale]
          obtain ⟨hR, hfresh⟩ := finv_fresh_pop hw hF hpop hgoal hstale
          obtain ⟨hRf, hdone, _, _, _⟩ :=
            relax_preserve hw (adjGet adjacency node) _ hR (fun e he => he)
          exact ih _ (rinv_to_finv hRf hdone)

theorem sum_filter_le {α : Type} (l : List α) (f : α → ℕ) (q : α → Bool) :
    ((l.filter q).map f).sum ≤ (l.map f).sum := by
  induction l with
  | nil => simp
  | cons x xs ih =>
    rw [List.filter_cons]
    cases hq : q x with
    | true =>
      rw [if_pos rfl]
      simp only [List.map_cons, List.sum_cons]
      omega
    | false =>
      rw [if_neg Bool.false_ne_true]
      simp only [List.map_cons, List.sum_cons]
      omega

theorem measure_init_le (adjacency : Adjacency) (start : String) :
    measureM adjacency ⟨[(0, start)], [(start, 0)], [(start, none)]⟩ ≤
      dijkstraFuel adjacency := by
  unfold measureM dijkstraFuel unsettledWeight totalAdjLen
  simp only [List.length_singleton]
  have h := sum_filter_le adjacency (fun p => p.2.length)
    (fun p => !(settledB [(start, (0 : ℚ))] [((0 : ℚ), start)] p.1))
  omega

/-! ## Predecessor-chain extraction and `buildPath` correctness -/

/-- The explicit node list (in pre-reversal order) that the predecessor walk
produces from `v`. -/
inductive ChainL (previous : List (String × Option String)) : String → List String → Prop
  | base {v} : dget previous v = some none → ChainL previous v [v]
  | step {v u l} : dget previous v = some (some u) → ChainL previous u l →
      ChainL previous v (v :: l)

theorem chainL_of_chainR {previous : List (String × Option String)} {v : String}
    (h : ChainR previous v) : ∃ l, ChainL previous v l := by
  induction h with
  | base hb => exact ⟨_, ChainL.base hb⟩
  | step hvu _ ih =>
    obtain ⟨l, hl⟩ := ih
    exact ⟨_, ChainL.step hvu hl⟩

theorem chainL_det {previous : List (String × Option String)} {v : String}
    {l1 : List String} (h1 : ChainL previous v l1) :
    ∀ {l2}, ChainL previous v l2 → l1 = l2 := by
  induction h1 with
  | @base v hb =>
    intro l2 h2
    cases h2 with
    | base hb2 => rfl
    | step hvu2 hl2 =>
      rw [hb] at hvu2
      cases hvu2
  | @step v u l hvu hl ih =>
    intro l2 h2
    cases h2 with
    | base hb2 =>
      rw [hb2] at hvu
      cases hvu
    | @step _ u2 l2' hvu2 hl2 =>
      rw [hvu] at hvu2
      cases hvu2
      rw [ih hl2]

theorem chainL_head {previous : List (String × Option String)} {v : String}
    {l : List String} (h : ChainL previous v l) : l.head? = some v := by
  cases h with
  | base hb => rfl
  | step hvu hl => rfl

theorem chainL_suffix {previous : List (String × Option String)} {v : String}
    {l : List String} (h : ChainL previous v l) :
    ∀ x ∈ l, ∃ lx, ChainL previous x lx ∧ lx.IsSuffix l := by
  induction h with
  | @base v hb =>
    intro x hx
    rw [List.mem_singleton] at hx
    subst hx
    exact ⟨[x], ChainL.base hb, List.suffix_refl _⟩
  | @step v u l hvu hl ih =>
    intro x hx
    rcases List.mem_cons.mp hx with hx1 | hx2
    · subst hx1
      exact ⟨x :: l, ChainL.step hvu hl, List.suffix_refl _⟩
    · obtain ⟨lx, hlx, hsuf⟩ := ih x hx2
      exact ⟨lx, hlx, hsuf.trans (List.suffix_cons v l)⟩

theorem chainL_nodup {previous : List (String × Option String)} {v : String}
    {l : List String} (h : ChainL previous v l) : l.Nodup := by
  induction h with
  | base hb => exact List.nodup_singleton _
  | @step v u l hvu hl ih =>
    rw [List.nodup_cons]
    refine ⟨?_, ih⟩
    intro hv
    obtain ⟨lv, hlv, hsuf⟩ := chainL_suffix hl v hv
    have := chainL_det (ChainL.step hvu hl) hlv
    have hlen := hsuf.length_le
    rw [← this] at hlen
    simp at hlen

theorem chainL_mem_keys {previous : List (String × Option String)} {v : String}
    {l : List String} (h : ChainL previous v l) :
    ∀ x ∈ l, x ∈ previous.map Prod.fst := by
  induction h with
  | @base v hb =>
    intro x hx
    rw [List.mem_singleton] at hx
    subst hx
    exact (dget_isSome_iff_mem_keys _ _).mp (by rw [hb]; rfl)
  | @step v u l hvu hl ih =>
    intro x hx
    rcases List.mem_cons.mp hx with hx1 | hx2
    · subst hx1
      exact (dget_isSome_iff_mem_keys _ _).mp (by rw [hvu]; rfl)
    · exact ih x hx2

theorem chainL_length_le {previous : List (String × Option String)} {v : String}
    {l : List String} (h : ChainL previous v l) : l.length ≤ previous.length := by
  have hsub : l ⊆ previous.map Prod.fst := fun x hx => chainL_mem_keys h x hx
  have := (List.subperm_of_subset (chainL_nodup h) hsub).length_le
  rwa [List.length_map] at this

theorem chainAux_eq_of_chainL {previous : List (String × Option String)} {v : String}
    {l : List String} (h : ChainL previous v l) :
    ∀ fuel, l.length ≤ fuel → chainAux previous fuel v = l := by
  induction h with
  | @base v hb =>
    intro fuel hfuel
    cases fuel with
    | zero => simp at hfuel
    | succ f =>
      rw [chainAux, hb]
  | @step v u l hvu hl ih =>
    intro fuel hfuel
    cases fuel with
    | zero => simp at hfuel
    | succ f =>
      rw [chainAux, hvu]
      dsimp only
      rw [ih f (by rw [List.length_cons] at hfuel; omega)]

theorem buildPath_eq {previous : List (String × Option String)} {goal : String}
    {l : List String} (h : ChainL previous goal l) :
    buildPath previous goal = l.reverse := by
  rw [buildPath, chainAux_eq_of_chainL h (previous.length + 1)
    (by have := chainL_length_le h; omega)]

/-- Along a predecessor chain, the reversed list is a start-to-endpoint walk
whose cost is the recorded distance, with no node immediately repeated. -/
theorem chainL_pathCost {adjacency : Adjacency} {start : String} {s : DState}
    (hC : CoreInv adjacency start s) :
    ∀ {v l}, ChainL s.previous v l →
      ∃ dv, dget s.distances v = some dv ∧
        PathCost adjacency l.reverse dv ∧ l.reverse.head? = some start ∧
        l.reverse.getLast? = some v ∧ l.Chain' (· ≠ ·) := by
  intro v l h
  induction h with
  | @base v hb =>
    have hv : v = start := hC.prev_none v hb
    subst hv
    refine ⟨0, hC.start_dist, ?_, rfl, rfl, List.chain'_singleton _⟩
    exact PathCost.single v
  | @step v u l hvu hl ih =>
    obtain ⟨du', hdu', hpath, hhead, hlast, hchain⟩ := ih
    obtain ⟨hne, du, dv, w, hdu, hdv, hmem, heq, _⟩ := hC.prev_edge v u hvu
    rw [hdu] at hdu'
    cases hdu'
    refine ⟨dv, hdv, ?_, ?_, ?_, ?_⟩
    · rw [List.reverse_cons]
      rw [heq]
      exact pathCost_snoc hpath hlast hmem
    · rw [List.reverse_cons]
      cases hrev : l.reverse with
      | nil => rw [hrev] at hlast; simp at hlast
      | cons a t => simp [hrev] at hhead ⊢; exact hhead
    · rw [List.reverse_cons, List.getLast?_concat]
    · have hhd := chainL_head hl
      cases l with
      | nil => simp at hhd
      | cons a t =>
        rw [List.head?_cons] at hhd
        cases hhd
        exact List.Chain'.cons (fun he => hne he.symm) hchain

/-! ## End-to-end characterization of `_dijkstra` -/

/-- When the goal is reachable, `_dijkstra` returns its minimum cost
together with a start-to-goal walk achieving it. -/
theorem dijkstra_reach_spec {start goal : String} {adjacency : Adjacency}
    (hw : NonnegSteps adjacency) (hreach : ∃ c0, ReachC adjacency start goal c0) :
    ∃ dg p, dijkstra start goal adjacency = (some dg, p) ∧
      (∀ c, ReachC adjacency start goal c → dg ≤ c) ∧
      ReachC adjacency start goal dg ∧
      PathCost adjacency p dg ∧ p.head? = some start ∧ p.getLast? = some goal ∧
      p.Chain' (· ≠ ·) := by
  have hF0 := finv_init adjacency start goal
  obtain ⟨dg, hdg, hopt⟩ := dloop_goal hw (dijkstraFuel adjacency) _ hF0
    (measure_init_le adjacency start) hreach
  have hC := dloop_core hw (dijkstraFuel adjacency) _ hF0
  set t := dloop adjacency goal (dijkstraFuel adjacency)
    ⟨[(0, start)], [(start, 0)], [(start, none)]⟩ with ht
  have hprev : (dget t.previous goal).isSome := (hC.dom_eq goal).mp (by rw [hdg]; rfl)
  obtain ⟨l, hl⟩ := chainL_of_chainR (hC.prev_chain goal hprev)
  obtain ⟨dv, hdv, hpath, hhead, hlast, hchain⟩ := chainL_pathCost hC hl
  rw [hdg] at hdv
  have hdveq : dg = dv := by
    injection hdv
  subst hdveq
  refine ⟨dg, l.reverse, ?_, hopt, hC.d_reach goal dg hdg, hpath, hhead, hlast, ?_⟩
  · rw [dijkstra, ← ht, dijkstraPost, if_pos hprev, hdg, buildPath_eq hl]
  · exact List.chain'_reverse.mpr (hchain.imp (fun a b hab => fun he => hab he.symm))

/-- Everything claim C1 needs about a `some`-returning run. -/
theorem dijkstra_some_spec {start goal : String} {adjacency : Adjacency}
    (hw : NonnegSteps adjacency) {c : ℚ} {p : List String}
    (h : dijkstra start goal adjacency = (some c, p)) :
    (∀ c', ReachC adjacency start goal c' → c ≤ c') ∧
    ReachC adjacency start goal c ∧
    PathCost adjacency p c ∧ p.head? = some start ∧ p.getLast? = some goal ∧
    p.Chain' (· ≠ ·) := by
  have hreach : ∃ c0, ReachC adjacency start goal c0 := by
    by_contra hc
    push_neg at hc
    rw [dijkstra_unreachable_aux start goal adjacency hc] at h
    simp at h
  obtain ⟨dg, p', heq, hopt, hreach', hpath, hhead, hlast, hchain⟩ :=
    dijkstra_reach_spec hw hreach
  rw [heq] at h
  rw [Prod.mk.injEq] at h
  obtain ⟨h1, h2⟩ := h
  cases h1
  subst h2
  exact ⟨hopt, hreach', hpath, hhead, hlast, hchain⟩

/-- The returned cost is `none` exactly on unreachable goals. -/
theorem dijkstra_none_iff {start goal : String} {adjacency : Adjacency}
    (hw : NonnegSteps adjacency) :
    (dijkstra start goal adjacency).1 = none ↔
      ∀ c, ¬ ReachC adjacency start goal c := by
  constructor
  · intro h c hc
    obtain ⟨dg, p, heq, _⟩ := dijkstra_reach_spec hw ⟨c, hc⟩
    rw [heq] at h
    simp at h
  · intro h
    rw [dijkstra_unreachable_aux start goal adjacency h]

/-- The returned path is empty iff the returned cost is `none`. -/
theorem dijkstra_path_eq_nil_iff {start goal : String} {adjacency : Adjacency} :
    ((dijkstra start goal adjacency).2 = [] ↔ (dijkstra start goal adjacency).1 = none) := by
  have hB := @binv_dloop adjacency start goal
    (dijkstraFuel adjacency) _ (binv_init adjacency start)
  set t := dloop adjacency goal (dijkstraFuel adjacency)
    ⟨[(0, start)], [(start, 0)], [(start, none)]⟩ with ht
  rw [dijkstra, ← ht, dijkstraPost]
  by_cases h : (dget t.previous goal).isSome
  · rw [if_pos h]
    have hd : (dget t.distances goal).isSome := (hB.dom_eq goal).mpr h
    obtain ⟨dg, hdg⟩ := Option.isSome_iff_exists.mp hd
    simp only [hdg]
    constructor
    · intro hb
      rw [buildPath, List.reverse_eq_nil_iff, chainAux] at hb
      simp at hb
    · intro hb
      cases hb
  · rw [if_neg h]
    simp

/-! ## Claim C1: single-pair Dijkstra correctness -/

theorem reach_congr {a1 a2 : Adjacency}
    (hsame : ∀ u e, e ∈ adjGet a1 u ↔ e ∈ adjGet a2 u)
    {start v : String} {c : ℚ} (h : ReachC a1 start v c) : ReachC a2 start v c := by
  induction h with
  | refl => exact ReachC.refl
  | step _ hm ih => exact ReachC.step ih ((hsame _ _).mp hm)

/-- **C1.** For every adjacency with non-negative weights and every node
pair, if `_dijkstra` returns a cost then the returned node list is a walk
from `start` to `goal` whose total weight is that cost, and the cost is
minimal over all start-to-goal walks; moreover any adjacency with the same
neighbor relations (e.g. reordered neighbor lists) yields the same returned
cost. -/
theorem C1_dijkstra_minimal (adjacency : Adjacency) (start goal : String)
    (hw : NonnegWeights adjacency) :
    (∀ c p, dijkstra start goal adjacency = (some c, p) →
      PathCost adjacency p c ∧ p.head? = some start ∧ p.getLast? = some goal ∧
      (∀ q cq, PathCost adjacency q cq → q.head? = some start →
        q.getLast? = some goal → c ≤ cq)) ∧
    (∀ adjacency2 : Adjacency,
      (∀ u e, e ∈ adjGet adjacency2 u ↔ e ∈ adjGet adjacency u) →
      (dijkstra start goal adjacency2).1 = (dijkstra start goal adjacency).1) := by
  have hws : NonnegSteps adjacency := nonnegSteps_of_nonnegWeights hw
  constructor
  · intro c p h
    obtain ⟨hopt, _, hpath, hhead, hlast, _⟩ := dijkstra_some_spec hws h
    exact ⟨hpath, hhead, hlast,
      fun q cq hq hqh hql => hopt cq (path_to_reach hq hqh hql)⟩
  · intro adjacency2 hsame
    have hws2 : NonnegSteps adjacency2 := fun u v w hm =>
      hws u v w ((hsame u (v, w)).mp hm)
    by_cases hreach : ∃ c0, ReachC adjacency start goal c0
    · obtain ⟨dg1, p1, heq1, hopt1, hr1, _⟩ := dijkstra_reach_spec hws hreach
      obtain ⟨c0, hc0⟩ := hreach
      have hreach2 : ∃ c0, ReachC adjacency2 start goal c0 :=
        ⟨c0, reach_congr (fun u e => (hsame u e).symm) hc0⟩
      obtain ⟨dg2, p2, heq2, hopt2, hr2, _⟩ := dijkstra_reach_spec hws2 hreach2
      rw [heq1, heq2]
      simp only
      have h12 : dg1 ≤ dg2 := hopt1 dg2 (reach_congr hsame hr2)
      have h21 : dg2 ≤ dg1 := hopt2 dg1 (reach_congr (fun u e => (hsame u e).symm) hr1)
      rw [le_antisymm h21 h12]
    · push_neg at hreach
      have hreach2 : ∀ c, ¬ ReachC adjacency2 start goal c := fun c hc =>
        hreach c (reach_congr hsame hc)
      rw [dijkstra_unreachable_aux start goal adjacency hreach,
        dijkstra_unreachable_aux start goal adjacency2 hreach2]

/-- Witness for C1 at a concrete two-node adjacency. -/
theorem C1_witness :
    NonnegWeights [("a", [("b", (1 : ℚ))]), ("b", [("a", 1)])] ∧
    ((∀ c p, dijkstra "a" "b" [("a", [("b", (1 : ℚ))]), ("b", [("a", 1)])] = (some c, p) →
      PathCost [("a", [("b", (1 : ℚ))]), ("b", [("a", 1)])] p c ∧
      p.head? = some "a" ∧ p.getLast? = some "b" ∧
      (∀ q cq, PathCost [("a", [("b", (1 : ℚ))]), ("b", [("a", 1)])] q cq →
        q.head? = some "a" → q.getLast? = some "b" → c ≤ cq)) ∧
    (∀ adjacency2 : Adjacency,
      (∀ u e, e ∈ adjGet adjacency2 u ↔
        e ∈ adjGet [("a", [("b", (1 : ℚ))]), ("b", [("a", 1)])] u) →
      (dijkstra "a" "b" adjacency2).1 =
        (dijkstra "a" "b" [("a", [("b", (1 : ℚ))]), ("b", [("a", 1)])]).1)) :=
  ⟨by decide, C1_dijkstra_minimal [("a", [("b", (1 : ℚ))]), ("b", [("a", 1)])] "a" "b"
    (by decide)⟩

/-! ## Claim C2: the entrance cross-product search -/

/-- The costs the loop considers, in order: the `some` results over the
entrance pairs (skipped pairs contribute nothing). -/
def legCosts (adjacency : Adjacency) (pairs : List (String × String)) : List ℚ :=
  pairs.filterMap (fun pr => (dijkstra pr.1 pr.2 adjacency).1)

/-- Reference fold: keep the strictly smaller candidate. -/
def minFold : Option ℚ → List ℚ → Option ℚ
  | bt, [] => bt
  | none, t :: ts => minFold (some t) ts
  | some b, t :: ts => if t < b then minFold (some t) ts else minFold (some b) ts

theorem minFold_none_iff (bt : Option ℚ) (ts : List ℚ) :
    minFold bt ts = none ↔ bt = none ∧ ts = [] := by
  induction ts generalizing bt with
  | nil => simp [minFold]
  | cons t ts ih =>
    cases bt with
    | none =>
      rw [minFold, ih]
      simp
    | some b =>
      rw [minFold]
      by_cases h : t < b
      · rw [if_pos h, ih]
        simp
      · rw [if_neg h, ih]
        simp

theorem minFold_some_spec (ts : List ℚ) :
    ∀ (bt : Option ℚ) (t : ℚ), minFold bt ts = some t →
      (t ∈ ts ∨ bt = some t) ∧ (∀ x ∈ ts, t ≤ x) ∧ (∀ b, bt = some b → t ≤ b) := by
  induction ts with
  | nil =>
    intro bt t h
    rw [minFold] at h
    exact ⟨Or.inr h, by simp, fun b hb => by rw [hb] at h; cases h; exact le_refl _⟩
  | cons x ts ih =>
    intro bt t h
    cases bt with
    | none =>
      rw [minFold] at h
      obtain ⟨h1, h2, h3⟩ := ih (some x) t h
      refine ⟨Or.inl ?_, ?_, by simp⟩
      · rcases h1 with h1 | h1
        · exact List.mem_cons_of_mem _ h1
        · cases h1
          exact List.mem_cons_self _ _
      · intro y hy
        rcases List.mem_cons.mp hy with hy1 | hy2
        · subst hy1
          exact h3 y rfl
        · exact h2 y hy2
    | some b =>
      rw [minFold] at h
      by_cases hlt : x < b
      · rw [if_pos hlt] at h
        obtain ⟨h1, h2, h3⟩ := ih (some x) t h
        have htx : t ≤ x := h3 x rfl
        refine ⟨Or.inl ?_, ?_, ?_⟩
        · rcases h1 with h1 | h1
          · exact List.mem_cons_of_mem _ h1
          · cases h1
            exact List.mem_cons_self _ _
        · intro y hy
          rcases List.mem_cons.mp hy with hy1 | hy2
          · subst hy1
            exact htx
          · exact h2 y hy2
        · intro b' hb'
          cases hb'
          linarith
      · rw [if_neg hlt] at h
        obtain ⟨h1, h2, h3⟩ := ih (some b) t h
        have htb : t ≤ b := h3 b rfl
        refine ⟨?_, ?_, ?_⟩
        · rcases h1 with h1 | h1
          · exact Or.inl (List.mem_cons_of_mem _ h1)
          · exact Or.inr h1
        · intro y hy
          rcases List.mem_cons.mp hy with hy1 | hy2
          · subst hy1
            linarith [le_of_not_lt hlt]
          · exact h2 y hy2
        · intro b' hb'
          cases hb'
          exact htb

/-- The loop's best time is the reference fold over the candidate costs. -/
theorem bestLeg_fst (adjacency : Adjacency) :
    ∀ (pairs : List (String × String)) (bt : Option ℚ) (bp : List String),
      (bestLeg adjacency pairs bt bp).1 = minFold bt (legCosts adjacency pairs) := by
  intro pairs
  induction pairs with
  | nil =>
    intro bt bp
    simp [bestLeg, legCosts, minFold]
  | cons pr rest ih =>
    intro bt bp
    obtain ⟨a, b⟩ := pr
    rw [bestLeg]
    cases hd : (dijkstra a b adjacency).1 with
    | none =>
      dsimp only
      rw [ih]
      unfold legCosts
      rw [List.filterMap_cons]
      simp only [hd]
    | some t =>
      dsimp only
      have hne : (dijkstra a b adjacency).2 ≠ [] := by
        intro hnil
        rw [dijkstra_path_eq_nil_iff] at hnil
        rw [hd] at hnil
        cases hnil
      rw [if_neg hne]
      have hcosts : legCosts adjacency ((a, b) :: rest) = t :: legCosts adjacency rest := by
        unfold legCosts
        rw [List.filterMap_cons]
        simp only [hd]
      rw [hcosts]
      cases bt with
      | none =>
        dsimp only
        rw [minFold]
        exact ih (some t) _
      | some btv =>
        dsimp only
        rw [minFold]
        by_cases hlt : t < btv
        · rw [if_pos hlt, if_pos hlt, ih]
        · rw [if_neg hlt, if_neg hlt, ih]

theorem mem_entrancePairs {entrA entrB : List String} {a b : String} :
    (a, b) ∈ entrancePairs entrA entrB ↔ a ∈ entrA ∧ b ∈ entrB := by
  unfold entrancePairs
  rw [List.mem_flatten]
  constructor
  · rintro ⟨l, hl, hab⟩
    rw [List.mem_map] at hl
    obtain ⟨a', ha', rfl⟩ := hl
    rw [List.mem_map] at hab
    obtain ⟨b', hb', hab⟩ := hab
    rw [Prod.mk.injEq] at hab
    obtain ⟨h1, h2⟩ := hab
    subst h1
    subst h2
    exact ⟨ha', hb'⟩
  · rintro ⟨ha, hb⟩
    exact ⟨entrB.map (fun e => (a, e)), List.mem_map.mpr ⟨a, ha, rfl⟩,
      List.mem_map.mpr ⟨b, hb, rfl⟩⟩

theorem mem_legCosts_iff {adjacency : Adjacency} {pairs : List (String × String)} {t : ℚ} :
    t ∈ legCosts adjacency pairs ↔
      ∃ pr ∈ pairs, (dijkstra pr.1 pr.2 adjacency).1 = some t := by
  unfold legCosts
  rw [List.mem_filterMap]

theorem legCosts_nil_iff {adjacency : Adjacency} {pairs : List (String × String)} :
    legCosts adjacency pairs = [] ↔
      ∀ pr ∈ pairs, (dijkstra pr.1 pr.2 adjacency).1 = none := by
  unfold legCosts
  rw [List.filterMap_eq_nil_iff]

/-- Internal characterization of `_shortest_path_between_buildings`'s time:
`none` iff no entrance pair is connected; otherwise the true minimum cost
over the full entrance cross-product. -/
theorem spb_spec {bById : List (String × Building)} {adjacency : Adjacency}
    {bA bB : String} (hw : NonnegSteps adjacency) :
    ((shortestPathBetweenBuildings bById bA bB adjacency).1 = none ↔
      ∀ a ∈ ((dget bById bA).map Building.entranceNodeIds).getD [],
      ∀ b ∈ ((dget bById bB).map Building.entranceNodeIds).getD [],
      ∀ c, ¬ ReachC adjacency a b c) ∧
    (∀ t, (shortestPathBetweenBuildings bById bA bB adjacency).1 = some t →
      (∃ a ∈ ((dget bById bA).map Building.entranceNodeIds).getD [],
       ∃ b ∈ ((dget bById bB).map Building.entranceNodeIds).getD [],
        ReachC adjacency a b t ∧ ∀ c, ReachC adjacency a b c → t ≤ c) ∧
      (∀ a ∈ ((dget bById bA).map Building.entranceNodeIds).getD [],
       ∀ b ∈ ((dget bById bB).map Building.entranceNodeIds).getD [],
       ∀ c, ReachC adjacency a b c → t ≤ c)) := by
  set entrA := ((dget bById bA).map Building.entranceNodeIds).getD [] with hA
  set entrB := ((dget bById bB).map Building.entranceNodeIds).getD [] with hB
  have hfst : (shortestPathBetweenBuildings bById bA bB adjacency).1 =
      minFold none (legCosts adjacency (entrancePairs entrA entrB)) := by
    rw [shortestPathBetweenBuildings]
    exact bestLeg_fst adjacency _ none []
  constructor
  · rw [hfst, minFold_none_iff]
    constructor
    · rintro ⟨_, hnil⟩ a ha b hb c hc
      have := (legCosts_nil_iff).mp hnil (a, b) (mem_entrancePairs.mpr ⟨ha, hb⟩)
      exact (dijkstra_none_iff hw).mp this c hc
    · intro h
      refine ⟨rfl, legCosts_nil_iff.mpr ?_⟩
      intro pr hpr
      obtain ⟨a, b⟩ := pr
      obtain ⟨ha, hb⟩ := mem_entrancePairs.mp hpr
      exact (dijkstra_none_iff hw).mpr (h a ha b hb)
  · intro t ht
    rw [hfst] at ht
    obtain ⟨h1, h2, _⟩ := minFold_some_spec _ none t ht
    rcases h1 with h1 | h1
    · obtain ⟨pr, hpr, hd⟩ := mem_legCosts_iff.mp h1
      obtain ⟨a0, b0⟩ := pr
      obtain ⟨ha, hb⟩ := mem_entrancePairs.mp hpr
      simp only at hd
      obtain ⟨p, hp⟩ : ∃ p, dijkstra a0 b0 adjacency = (some t, p) := by
        cases hdij : dijkstra a0 b0 adjacency with
        | mk fst snd =>
          rw [hdij] at hd
          simp only at hd
          subst hd
          exact ⟨snd, rfl⟩
      obtain ⟨hopt, hreach, _⟩ := dijkstra_some_spec hw hp
      constructor
      · exact ⟨a0, ha, b0, hb, hreach, hopt⟩
      · intro a ha' b hb' c hc
        have hcand : ∃ dg pth, dijkstra a b adjacency = (some dg, pth) ∧
            (∀ c', ReachC adjacency a b c' → dg ≤ c') := by
          obtain ⟨dg, pth, heq, hopt', _⟩ := dijkstra_reach_spec hw ⟨c, hc⟩
          exact ⟨dg, pth, heq, hopt'⟩
        obtain ⟨dg, pth, heq, hopt'⟩ := hcand
        have hmem : dg ∈ legCosts adjacency (entrancePairs entrA entrB) :=
          mem_legCosts_iff.mpr ⟨(a, b), mem_entrancePairs.mpr ⟨ha', hb'⟩,
            by rw [heq]⟩
        exact le_trans (h2 dg hmem) (hopt' c hc)
    · cases h1

/-- **C2.** The leg time reported by `_shortest_path_between_buildings` is
exactly the minimum over the full entrance cross-product of the
start-to-end shortest-path costs: it returns no time iff no entrance pair
is connected, and a returned time is achieved by some entrance pair as its
minimum cost and is at most the cost of every walk between every entrance
pair. -/
theorem C2_entrance_cross_product (bById : List (String × Building))
    (adjacency : Adjacency) (bA bB : String) (hw : NonnegWeights adjacency) :
    ((shortestPathBetweenBuildings bById bA bB adjacency).1 = none ↔
      ∀ a ∈ ((dget bById bA).map Building.entranceNodeIds).getD [],
      ∀ b ∈ ((dget bById bB).map Building.entranceNodeIds).getD [],
      ∀ c, ¬ ReachC adjacency a b c) ∧
    (∀ t, (shortestPathBetweenBuildings bById bA bB adjacency).1 = some t →
      (∃ a ∈ ((dget bById bA).map Building.entranceNodeIds).getD [],
       ∃ b ∈ ((dget bById bB).map Building.entranceNodeIds).getD [],
        ReachC adjacency a b t ∧ ∀ c, ReachC adjacency a b c → t ≤ c) ∧
      (∀ a ∈ ((dget bById bA).map Building.entranceNodeIds).getD [],
       ∀ b ∈ ((dget bById bB).map Building.entranceNodeIds).getD [],
       ∀ c, ReachC adjacency a b c → t ≤ c)) :=
  spb_spec (nonnegSteps_of_nonnegWeights hw)

/-- Witness for C2 at a concrete one-entrance-per-building setup. -/
theorem C2_witness :
    NonnegWeights [("a", [("b", (2 : ℚ))]), ("b", [("a", 2)])] ∧
    (((shortestPathBetweenBuildings
        [("A", ⟨"A", "Building A", ["a"]⟩), ("B", ⟨"B", "Building B", ["b"]⟩)]
        "A" "B" [("a", [("b", (2 : ℚ))]), ("b", [("a", 2)])]).1 = none ↔
      ∀ a ∈ ((dget [("A", (⟨"A", "Building A", ["a"]⟩ : Building)),
          ("B", ⟨"B", "Building B", ["b"]⟩)] "A").map Building.entranceNodeIds).getD [],
      ∀ b ∈ ((dget [("A", (⟨"A", "Building A", ["a"]⟩ : Building)),
          ("B", ⟨"B", "Building B", ["b"]⟩)] "B").map Building.entranceNodeIds).getD [],
      ∀ c, ¬ ReachC [("a", [("b", (2 : ℚ))]), ("b", [("a", 2)])] a b c) ∧
    (∀ t, (shortestPathBetweenBuildings
        [("A", ⟨"A", "Building A", ["a"]⟩), ("B", ⟨"B", "Building B", ["b"]⟩)]
        "A" "B" [("a", [("b", (2 : ℚ))]), ("b", [("a", 2)])]).1 = some t →
      (∃ a ∈ ((dget [("A", (⟨"A", "Building A", ["a"]⟩ : Building)),
          ("B", ⟨"B", "Building B", ["b"]⟩)] "A").map Building.entranceNodeIds).getD [],
       ∃ b ∈ ((dget [("A", (⟨"A", "Building A", ["a"]⟩ : Building)),
          ("B", ⟨"B", "Building B", ["b"]⟩)] "B").map Building.entranceNodeIds).getD [],
        ReachC [("a", [("b", (2 : ℚ))]), ("b", [("a", 2)])] a b t ∧
        ∀ c, ReachC [("a", [("b", (2 : ℚ))]), ("b", [("a", 2)])] a b c → t ≤ c) ∧
      (∀ a ∈ ((dget [("A", (⟨"A", "Building A", ["a"]⟩ : Building)),
          ("B", ⟨"B", "Building B", ["b"]⟩)] "A").map Building.entranceNodeIds).getD [],
       ∀ b ∈ ((dget [("A", (⟨"A", "Building A", ["a"]⟩ : Building)),
          ("B", ⟨"B", "Building B", ["b"]⟩)] "B").map Building.entranceNodeIds).getD [],
       ∀ c, ReachC [("a", [("b", (2 : ℚ))]), ("b", [("a", 2)])] a b c → t ≤ c))) :=
  ⟨by decide, C2_entrance_cross_product
    [("A", ⟨"A", "Building A", ["a"]⟩), ("B", ⟨"B", "Building B", ["b"]⟩)]
    [("a", [("b", (2 : ℚ))]), ("b", [("a", 2)])] "A" "B" (by decide)⟩

/-! ## Further engine lemmas used by the route stitcher claims -/

/-- Spec §4.4 edge case: `start == goal` returns cost 0 and the single-node
path, for any adjacency. -/
theorem dijkstra_self (adjacency : Adjacency) (v : String) :
    dijkstra v v adjacency = (some 0, [v]) := by
  have hf : dijkstraFuel adjacency = (totalAdjLen adjacency + 1) + 1 := rfl
  rw [dijkstra, hf, dloop]
  have hpop : popMin [((0 : ℚ), v)] = some ((0, v), []) := by
    have hmE : minEntry ((0 : ℚ), v) [] = (0, v) := rfl
    rw [popMin]
    rw [hmE, erase1, if_pos rfl]
  rw [hpop]
  dsimp only
  rw [if_pos rfl, dijkstraPost]
  have hprev : dget [(v, (none : Option String))] v = some none := by
    rw [dget_cons, if_pos rfl]
  rw [hprev]
  simp only [Option.isSome_some, if_true]
  have hdist : dget [(v, (0 : ℚ))] v = some 0 := by
    rw [dget_cons, if_pos rfl]
  rw [hdist, buildPath]
  simp only [List.length_singleton]
  rw [chainAux, hprev]
  rfl

/-- Through the loop, an empty best path accompanies exactly a `none` best
time. -/
theorem bestLeg_nil_iff (adjacency : Adjacency) :
    ∀ (pairs : List (String × String)) (bt : Option ℚ) (bp : List String),
      (bt = none ↔ bp = []) →
      ((bestLeg adjacency pairs bt bp).1 = none ↔
        (bestLeg adjacency pairs bt bp).2 = []) := by
  intro pairs
  induction pairs with
  | nil =>
    intro bt bp h
    exact h
  | cons pr rest ih =>
    intro bt bp h
    obtain ⟨a, b⟩ := pr
    rw [bestLeg]
    cases hd : (dijkstra a b adjacency).1 with
    | none =>
      dsimp only
      exact ih bt bp h
    | some t =>
      dsimp only
      have hne : (dijkstra a b adjacency).2 ≠ [] := by
        intro hnil
        rw [dijkstra_path_eq_nil_iff] at hnil
        rw [hd] at hnil
        cases hnil
      rw [if_neg hne]
      cases bt with
      | none =>
        dsimp only
        exact ih (some t) _ (by simp [hne])
      | some btv =>
        dsimp only
        by_cases hlt : t < btv
        · rw [if_pos hlt]
          exact ih (some t) _ (by simp [hne])
        · rw [if_neg hlt]
          exact ih (some btv) bp h

/-! ## Claim C5: validation precedence of the route endpoint -/

theorem spb_path_nil_iff {bById : List (String × Building)} {adjacency : Adjacency}
    {sc ec : String} :
    ((shortestPathBetweenBuildings bById sc ec adjacency).2 = [] ↔
      (shortestPathBetweenBuildings bById sc ec adjacency).1 = none) := by
  rw [shortestPathBetweenBuildings]
  exact (bestLeg_nil_iff adjacency _ none [] (by simp)).symm

/-- Running the leg loop: it fails with `noPathFound` on the first pair
whose building-to-building search finds no path, and succeeds otherwise. -/
theorem legsLoop_run (bById : List (String × Building)) (nById : List (String × Node))
    (adjacency : Adjacency) :
    ∀ (pairs : List (String × String)) (total : ℚ) (combined : List String)
      (legs : List Leg),
      (match pairs.find? (fun pr =>
          ((shortestPathBetweenBuildings bById pr.1 pr.2 adjacency).1).isNone) with
       | some pr => legsLoop bById nById adjacency pairs total combined legs =
           RouteResult.noPathFound pr.1 pr.2
       | none => ∃ legs' t p,
           legsLoop bById nById adjacency pairs total combined legs =
             RouteResult.ok legs' t p) := by
  intro pairs
  induction pairs with
  | nil =>
    intro total combined legs
    rw [List.find?_nil]
    exact ⟨legs, total, combined, rfl⟩
  | cons pr rest ih =>
    intro total combined legs
    obtain ⟨sc, ec⟩ := pr
    cases hd : (shortestPathBetweenBuildings bById sc ec adjacency).1 with
    | none =>
      rw [List.find?_cons_of_pos _ (by simp [hd])]
      rw [legsLoop, hd]
    | some lt =>
      have hne : (shortestPathBetweenBuildings bById sc ec adjacency).2 ≠ [] := by
        intro hnil
        rw [spb_path_nil_iff, hd] at hnil
        cases hnil
      rw [List.find?_cons_of_neg _ (by simp [hd])]
      rw [legsLoop, hd]
      dsimp only
      rw [if_neg hne]
      exact ih _ _ _

/-- **C5.** `compute_route` fails with HTTP 400 structured errors in exactly
this precedence: `invalidRequest` when the buildings field is not a list or
is empty; then `unknownBuildings` naming every requested code absent from
the building index; then `insufficientEndpoints` when fewer than two codes
remain; then `noPathFound` naming the two codes of the first consecutive
leg with no path, with no partial result; and a request passing all checks
succeeds. -/
theorem C5_validation_precedence (g : Graph) :
    (computeRoute g BuildingsInput.notAList = RouteResult.invalidRequest) ∧
    (computeRoute g (BuildingsInput.list []) = RouteResult.invalidRequest) ∧
    (∀ codes, codes ≠ [] →
      codes.filter (fun code => (dget (buildingsById g) code).isNone) ≠ [] →
      computeRoute g (BuildingsInput.list codes) =
        RouteResult.unknownBuildings
          (codes.filter (fun code => (dget (buildingsById g) code).isNone))) ∧
    (∀ codes, codes ≠ [] →
      codes.filter (fun code => (dget (buildingsById g) code).isNone) = [] →
      codes.length < 2 →
      computeRoute g (BuildingsInput.list codes) = RouteResult.insufficientEndpoints) ∧
    (∀ codes, codes ≠ [] →
      codes.filter (fun code => (dget (buildingsById g) code).isNone) = [] →
      ¬ codes.length < 2 →
      (match (codes.zip codes.tail).find? (fun pr =>
          ((shortestPathBetweenBuildings (buildingsById g) pr.1 pr.2
            (buildAdjacency g)).1).isNone) with
       | some pr => computeRoute g (BuildingsInput.list codes) =
           RouteResult.noPathFound pr.1 pr.2
       | none => ∃ legs t p, computeRoute g (BuildingsInput.list codes) =
           RouteResult.ok legs t p)) := by
  refine ⟨rfl, rfl, ?_, ?_, ?_⟩
  · intro codes hne hinv
    rw [computeRoute]
    dsimp only
    rw [if_neg hne, if_pos hinv]
  · intro codes hne hinv hlen
    rw [computeRoute]
    dsimp only
    rw [if_neg hne, if_neg (by rw [hinv]; exact fun h => h rfl), if_pos hlen]
  · intro codes hne hinv hlen
    have hrun := legsLoop_run (buildingsById g) (nodesById g) (buildAdjacency g)
      (codes.zip codes.tail) 0 [] []
    cases hfind : (codes.zip codes.tail).find? (fun pr =>
        ((shortestPathBetweenBuildings (buildingsById g) pr.1 pr.2
          (buildAdjacency g)).1).isNone) with
    | none =>
      rw [hfind] at hrun
      obtain ⟨legs', t, p, hres⟩ := hrun
      refine ⟨legs', t, p, ?_⟩
      rw [computeRoute]
      dsimp only
      rw [if_neg hne, if_neg (by rw [hinv]; exact fun h => h rfl), if_neg hlen]
      exact hres
    | some pr =>
      rw [hfind] at hrun
      rw [computeRoute]
      dsimp only
      rw [if_neg hne, if_neg (by rw [hinv]; exact fun h => h rfl), if_neg hlen]
      exact hrun

/-- Witness for C5 at the spec §8 scenario graph (unknown code and
single-code requests included in the statement's coverage). -/
theorem C5_witness :
    (computeRoute ⟨[⟨"N1", 0, 0⟩, ⟨"N4", 3, 0⟩],
        [⟨"E1", "N1", "N4", 10, none, ⟨false, false, false, false⟩⟩],
        [⟨"X", "Building X", ["N1"]⟩, ⟨"Y", "Building Y", ["N4"]⟩],
        ⟨1, ⟨none, none, none⟩⟩, ⟨[]⟩⟩ BuildingsInput.notAList =
      RouteResult.invalidRequest) ∧
    (computeRoute ⟨[⟨"N1", 0, 0⟩, ⟨"N4", 3, 0⟩],
        [⟨"E1", "N1", "N4", 10, none, ⟨false, false, false, false⟩⟩],
        [⟨"X", "Building X", ["N1"]⟩, ⟨"Y", "Building Y", ["N4"]⟩],
        ⟨1, ⟨none, none, none⟩⟩, ⟨[]⟩⟩ (BuildingsInput.list ["X", "ZZZ"]) =
      RouteResult.unknownBuildings ["ZZZ"]) ∧
    (computeRoute ⟨[⟨"N1", 0, 0⟩, ⟨"N4", 3, 0⟩],
        [⟨"E1", "N1", "N4", 10, none, ⟨false, false, false, false⟩⟩],
        [⟨"X", "Building X", ["N1"]⟩, ⟨"Y", "Building Y", ["N4"]⟩],
        ⟨1, ⟨none, none, none⟩⟩, ⟨[]⟩⟩ (BuildingsInput.list ["X"]) =
      RouteResult.insufficientEndpoints) := by
  refine ⟨(C5_validation_precedence _).1, ?_, ?_⟩
  · have h := (C5_validation_precedence ⟨[⟨"N1", 0, 0⟩, ⟨"N4", 3, 0⟩],
        [⟨"E1", "N1", "N4", 10, none, ⟨false, false, false, false⟩⟩],
        [⟨"X", "Building X", ["N1"]⟩, ⟨"Y", "Building Y", ["N4"]⟩],
        ⟨1, ⟨none, none, none⟩⟩, ⟨[]⟩⟩).2.2.1 ["X", "ZZZ"] (by decide) (by decide)
    have hfil : (["X", "ZZZ"].filter (fun code =>
        (dget (buildingsById ⟨[⟨"N1", 0, 0⟩, ⟨"N4", 3, 0⟩],
          [⟨"E1", "N1", "N4", 10, none, ⟨false, false, false, false⟩⟩],
          [⟨"X", "Building X", ["N1"]⟩, ⟨"Y", "Building Y", ["N4"]⟩],
          ⟨1, ⟨none, none, none⟩⟩, ⟨[]⟩⟩) code).isNone)) = ["ZZZ"] := by decide
    rw [hfil] at h
    exact h
  · exact (C5_validation_precedence _).2.2.2.1 ["X"] (by decide) (by decide) (by decide)

/-! ## Claims C7 and C10: totals of successful routes -/

theorem isNone_false_of_isSome {α : Type} {o : Option α} (h : o.isSome) :
    o.isNone = false := by
  cases o with
  | none => cases h
  | some x => rfl

/-- On success, the reported total time is the initial accumulator plus the
sum of the leg times. -/
theorem legsLoop_total (bById : List (String × Building)) (nById : List (String × Node))
    (adjacency : Adjacency) :
    ∀ (pairs : List (String × String)) (total : ℚ) (combined : List String)
      (legs : List Leg) (legs' : List Leg) (t : ℚ) (p : List String),
      legsLoop bById nById adjacency pairs total combined legs =
        RouteResult.ok legs' t p →
      t = total + (pairs.filterMap
        (fun pr => (shortestPathBetweenBuildings bById pr.1 pr.2 adjacency).1)).sum := by
  intro pairs
  induction pairs with
  | nil =>
    intro total combined legs legs' t p h
    rw [legsLoop] at h
    rw [RouteResult.ok.injEq] at h
    rw [← h.2.1]
    simp
  | cons pr rest ih =>
    intro total combined legs legs' t p h
    obtain ⟨sc, ec⟩ := pr
    cases hd : (shortestPathBetweenBuildings bById sc ec adjacency).1 with
    | none =>
      rw [legsLoop, hd] at h
      cases h
    | some t0 =>
      have hne : (shortestPathBetweenBuildings bById sc ec adjacency).2 ≠ [] := by
        intro hnil
        rw [spb_path_nil_iff, hd] at hnil
        cases hnil
      rw [legsLoop, hd] at h
      dsimp only at h
      rw [if_neg hne] at h
      have := ih _ _ _ _ _ _ h
      rw [this, List.filterMap_cons]
      simp only [hd, List.sum_cons]
      ring

/-- A request past validation with every leg connected succeeds, with total
time the sum of the legs' times. -/
theorem computeRoute_ok_total (g : Graph) (codes : List String)
    (hne : codes ≠ [])
    (hval : codes.filter (fun code => (dget (buildingsById g) code).isNone) = [])
    (hlen : ¬ codes.length < 2)
    (hall : ∀ pr ∈ codes.zip codes.tail,
      ((shortestPathBetweenBuildings (buildingsById g) pr.1 pr.2
        (buildAdjacency g)).1).isSome) :
    ∃ legs t p, computeRoute g (BuildingsInput.list codes) = RouteResult.ok legs t p ∧
      t = ((codes.zip codes.tail).filterMap
        (fun pr => (shortestPathBetweenBuildings (buildingsById g) pr.1 pr.2
          (buildAdjacency g)).1)).sum := by
  have hfind : (codes.zip codes.tail).find? (fun pr =>
      ((shortestPathBetweenBuildings (buildingsById g) pr.1 pr.2
        (buildAdjacency g)).1).isNone) = none := by
    rw [List.find?_eq_none]
    intro pr hpr h
    rw [isNone_false_of_isSome (hall pr hpr)] at h
    cases h
  have hrun := legsLoop_run (buildingsById g) (nodesById g) (buildAdjacency g)
    (codes.zip codes.tail) 0 [] []
  rw [hfind] at hrun
  obtain ⟨legs', t, p, hres⟩ := hrun
  have htot := legsLoop_total (buildingsById g) (nodesById g) (buildAdjacency g)
    _ _ _ _ _ _ _ hres
  refine ⟨legs', t, p, ?_, by rw [htot]; ring⟩
  rw [computeRoute]
  dsimp only
  rw [if_neg hne, if_neg (by rw [hval]; exact fun h => h rfl), if_neg hlen]
  exact hres

/-- Entrance list of a building code, as the stitcher reads it. -/
def entrancesOf (g : Graph) (code : String) : List String :=
  ((dget (buildingsById g) code).map Building.entranceNodeIds).getD []

theorem dijkstra_fst_some {a b : String} {adjacency : Adjacency} {t : ℚ}
    (h : (dijkstra a b adjacency).1 = some t) :
    ∃ p, dijkstra a b adjacency = (some t, p) := by
  cases hd : dijkstra a b adjacency with
  | mk fst snd =>
    rw [hd] at h
    simp only at h
    subst h
    exact ⟨snd, rfl⟩

theorem spb_isSome_of_reach {g : Graph} {bA bB : String}
    (hw : NonnegSteps (buildAdjacency g))
    (h : ∃ a ∈ entrancesOf g bA, ∃ b ∈ entrancesOf g bB,
      ∃ c, ReachC (buildAdjacency g) a b c) :
    ((shortestPathBetweenBuildings (buildingsById g) bA bB
      (buildAdjacency g)).1).isSome := by
  obtain ⟨a, ha, b, hb, c, hc⟩ := h
  cases hd : (shortestPathBetweenBuildings (buildingsById g) bA bB
      (buildAdjacency g)).1 with
  | none => exact absurd hc ((spb_spec hw).1.mp hd a ha b hb c)
  | some t => rfl

/-- **C7.** For buildings `A`, `B`, `C` that are known and connected on the
consecutive legs (in particular for mutually reachable buildings), the
total time of `route([A,B,C])` is exactly the total time of `route([A,B])`
plus the total time of `route([B,C])`. -/
theorem C7_route_additivity (g : Graph) (A B C : String)
    (hw : NonnegWeights (buildAdjacency g))
    (hA : (dget (buildingsById g) A).isSome)
    (hB : (dget (buildingsById g) B).isSome)
    (hC : (dget (buildingsById g) C).isSome)
    (hAB : ∃ a ∈ entrancesOf g A, ∃ b ∈ entrancesOf g B,
      ∃ c, ReachC (buildAdjacency g) a b c)
    (hBC : ∃ b ∈ entrancesOf g B, ∃ c ∈ entrancesOf g C,
      ∃ cc, ReachC (buildAdjacency g) b c cc) :
    ∃ tAB tBC legsAB legsBC legsABC pAB pBC pABC,
      computeRoute g (BuildingsInput.list [A, B]) = RouteResult.ok legsAB tAB pAB ∧
      computeRoute g (BuildingsInput.list [B, C]) = RouteResult.ok legsBC tBC pBC ∧
      computeRoute g (BuildingsInput.list [A, B, C]) =
        RouteResult.ok legsABC (tAB + tBC) pABC := by
  have hws := nonnegSteps_of_nonnegWeights hw
  have hsAB := spb_isSome_of_reach hws hAB
  have hsBC := spb_isSome_of_reach hws hBC
  obtain ⟨vAB, hvAB⟩ := Option.isSome_iff_exists.mp hsAB
  obtain ⟨vBC, hvBC⟩ := Option.isSome_iff_exists.mp hsBC
  have hfilAB : [A, B].filter (fun code => (dget (buildingsById g) code).isNone) = [] := by
    rw [List.filter_cons, List.filter_cons, List.filter_nil,
      isNone_false_of_isSome hA, isNone_false_of_isSome hB]
    rw [if_neg Bool.false_ne_true, if_neg Bool.false_ne_true]
  have hfilBC : [B, C].filter (fun code => (dget (buildingsById g) code).isNone) = [] := by
    rw [List.filter_cons, List.filter_cons, List.filter_nil,
      isNone_false_of_isSome hB, isNone_false_of_isSome hC]
    rw [if_neg Bool.false_ne_true, if_neg Bool.false_ne_true]
  have hfilABC : [A, B, C].filter
      (fun code => (dget (buildingsById g) code).isNone) = [] := by
    rw [List.filter_cons, List.filter_cons, List.filter_cons, List.filter_nil,
      isNone_false_of_isSome hA, isNone_false_of_isSome hB, isNone_false_of_isSome hC]
    rw [if_neg Bool.false_ne_true, if_neg Bool.false_ne_true, if_neg Bool.false_ne_true]
  have hzAB : [A, B].zip [A, B].tail = [(A, B)] := rfl
  have hzBC : [B, C].zip [B, C].tail = [(B, C)] := rfl
  have hzABC : [A, B, C].zip [A, B, C].tail = [(A, B), (B, C)] := rfl
  obtain ⟨legs1, t1, p1, hres1, ht1⟩ := computeRoute_ok_total g [A, B]
    (by simp) hfilAB (by simp)
    (by
      rw [hzAB]
      intro pr hpr
      rw [List.mem_singleton] at hpr
      subst hpr
      exact hsAB)
  obtain ⟨legs2, t2, p2, hres2, ht2⟩ := computeRoute_ok_total g [B, C]
    (by simp) hfilBC (by simp)
    (by
      rw [hzBC]
      intro pr hpr
      rw [List.mem_singleton] at hpr
      subst hpr
      exact hsBC)
  obtain ⟨legs3, t3, p3, hres3, ht3⟩ := computeRoute_ok_total g [A, B, C]
    (by simp) hfilABC (by simp)
    (by
      rw [hzABC]
      intro pr hpr
      rcases List.mem_cons.mp hpr with h1 | h1
      · subst h1
        exact hsAB
      · rw [List.mem_singleton] at h1
        subst h1
        exact hsBC)
  refine ⟨t1, t2, legs1, legs2, legs3, p1, p2, p3, hres1, hres2, ?_⟩
  rw [hres3]
  have : t3 = t1 + t2 := by
    rw [ht1, ht2, ht3, hzAB, hzBC, hzABC]
    simp only [List.filterMap_cons, List.filterMap_nil, hvAB, hvBC, List.sum_cons,
      List.sum_nil]
    ring
  rw [this]

/-- Witness for C7 on a three-buildings-in-a-line graph. -/
theorem C7_witness :
    ∃ tAB tBC legsAB legsBC legsABC pAB pBC pABC,
      computeRoute ⟨[⟨"a", 0, 0⟩, ⟨"b", 1, 0⟩, ⟨"c", 2, 0⟩],
        [⟨"e1", "a", "b", 10, none, ⟨false, false, false, false⟩⟩,
         ⟨"e2", "b", "c", 10, none, ⟨false, false, false, false⟩⟩],
        [⟨"A", "Bldg A", ["a"]⟩, ⟨"B", "Bldg B", ["b"]⟩, ⟨"C", "Bldg C", ["c"]⟩],
        ⟨1, ⟨none, none, none⟩⟩, ⟨[]⟩⟩
        (BuildingsInput.list ["A", "B"]) = RouteResult.ok legsAB tAB pAB ∧
      computeRoute ⟨[⟨"a", 0, 0⟩, ⟨"b", 1, 0⟩, ⟨"c", 2, 0⟩],
        [⟨"e1", "a", "b", 10, none, ⟨false, false, false, false⟩⟩,
         ⟨"e2", "b", "c", 10, none, ⟨false, false, false, false⟩⟩],
        [⟨"A", "Bldg A", ["a"]⟩, ⟨"B", "Bldg B", ["b"]⟩, ⟨"C", "Bldg C", ["c"]⟩],
        ⟨1, ⟨none, none, none⟩⟩, ⟨[]⟩⟩
        (BuildingsInput.list ["B", "C"]) = RouteResult.ok legsBC tBC pBC ∧
      computeRoute ⟨[⟨"a", 0, 0⟩, ⟨"b", 1, 0⟩, ⟨"c", 2, 0⟩],
        [⟨"e1", "a", "b", 10, none, ⟨false, false, false, false⟩⟩,
         ⟨"e2", "b", "c", 10, none, ⟨false, false, false, false⟩⟩],
        [⟨"A", "Bldg A", ["a"]⟩, ⟨"B", "Bldg B", ["b"]⟩, ⟨"C", "Bldg C", ["c"]⟩],
        ⟨1, ⟨none, none, none⟩⟩, ⟨[]⟩⟩
        (BuildingsInput.list ["A", "B", "C"]) =
          RouteResult.ok legsABC (tAB + tBC) pABC := by
  apply C7_route_additivity _ "A" "B" "C"
    (nonnegWeights_buildAdjacency _ (by
      intro e he w hwe
      rcases List.mem_cons.mp he with h1 | h1
      · subst h1
        have h2 : some ((10 : ℚ) / 1 + 0) = some w := hwe
        injection h2 with h3
        rw [← h3]
        norm_num
      · rw [List.mem_singleton] at h1
        subst h1
        have h2 : some ((10 : ℚ) / 1 + 0) = some w := hwe
        injection h2 with h3
        rw [← h3]
        norm_num))
    (by decide) (by decide) (by decide)
  · exact ⟨"a", by decide, "b", by decide, _,
      ReachC.step ReachC.refl (List.mem_cons_self _ _)⟩
  · exact ⟨"b", by decide, "c", by decide, _,
      ReachC.step ReachC.refl (List.Mem.tail _ (List.mem_cons_self _ _))⟩

/-- The leg time of a building against itself is 0 when it has at least one
entrance. -/
theorem spb_self_zero {g : Graph} {X : String} (hw : NonnegSteps (buildAdjacency g))
    (hentr : entrancesOf g X ≠ []) :
    (shortestPathBetweenBuildings (buildingsById g) X X (buildAdjacency g)).1 =
      some 0 := by
  obtain ⟨e, entr', hentr'⟩ : ∃ e entr', entrancesOf g X = e :: entr' := by
    cases h : entrancesOf g X with
    | nil => exact absurd h hentr
    | cons e t => exact ⟨e, t, rfl⟩
  have he : e ∈ entrancesOf g X := by
    rw [hentr']
    exact List.mem_cons_self _ _
  have hfst : (shortestPathBetweenBuildings (buildingsById g) X X
      (buildAdjacency g)).1 =
      minFold none (legCosts (buildAdjacency g)
        (entrancePairs (entrancesOf g X) (entrancesOf g X))) := by
    rw [shortestPathBetweenBuildings]
    exact bestLeg_fst _ _ none []
  have h0 : (0 : ℚ) ∈ legCosts (buildAdjacency g)
      (entrancePairs (entrancesOf g X) (entrancesOf g X)) :=
    mem_legCosts_iff.mpr ⟨(e, e), mem_entrancePairs.mpr ⟨he, he⟩,
      by rw [dijkstra_self]⟩
  rw [hfst]
  cases hm : minFold none (legCosts (buildAdjacency g)
      (entrancePairs (entrancesOf g X) (entrancesOf g X))) with
  | none =>
    rw [minFold_none_iff] at hm
    rw [hm.2] at h0
    exact absurd h0 (List.not_mem_nil _)
  | some t =>
    obtain ⟨h1, h2, _⟩ := minFold_some_spec _ none t hm
    have ht0 : t ≤ 0 := h2 0 h0
    rcases h1 with h1 | h1
    · obtain ⟨pr, hpr, hd⟩ := mem_legCosts_iff.mp h1
      obtain ⟨p, hp⟩ := dijkstra_fst_some hd
      have hreach := (dijkstra_some_spec hw hp).2.1
      have hge : 0 ≤ t := reach_nonneg hw hreach
      rw [le_antisymm ht0 hge]
    · cases h1

/-- **C10.** Requesting the same known building twice in a row passes all
validation and succeeds with total time 0, because the entrance
cross-product contains an identical entrance pair whose shortest path
costs 0. -/
theorem C10_duplicate_code (g : Graph) (X : String)
    (hw : NonnegWeights (buildAdjacency g))
    (hX : (dget (buildingsById g) X).isSome)
    (hentr : entrancesOf g X ≠ []) :
    ∃ legs p, computeRoute g (BuildingsInput.list [X, X]) =
      RouteResult.ok legs 0 p := by
  have hws := nonnegSteps_of_nonnegWeights hw
  have hspb := spb_self_zero hws hentr
  have hz : [X, X].zip [X, X].tail = [(X, X)] := rfl
  have hfil : [X, X].filter (fun code => (dget (buildingsById g) code).isNone) = [] := by
    rw [List.filter_cons, List.filter_cons, List.filter_nil,
      isNone_false_of_isSome hX]
    rw [if_neg Bool.false_ne_true, if_neg Bool.false_ne_true]
  obtain ⟨legs, t, p, hres, ht⟩ := computeRoute_ok_total g [X, X]
    (by simp) hfil (by simp)
    (by
      rw [hz]
      intro pr hpr
      rw [List.mem_singleton] at hpr
      subst hpr
      rw [hspb]
      rfl)
  have ht0 : t = 0 := by
    rw [ht, hz, List.filterMap_cons, List.filterMap_nil]
    simp only [hspb, List.sum_cons, List.sum_nil]
    ring
  rw [ht0] at hres
  exact ⟨legs, p, hres⟩

/-- Witness for C10. -/
theorem C10_witness :
    ∃ legs p, computeRoute ⟨[⟨"a", 0, 0⟩, ⟨"b", 1, 0⟩],
        [⟨"e1", "a", "b", 10, none, ⟨false, false, false, false⟩⟩],
        [⟨"A", "Bldg A", ["a", "b"]⟩],
        ⟨1, ⟨none, none, none⟩⟩, ⟨[]⟩⟩ (BuildingsInput.list ["A", "A"]) =
      RouteResult.ok legs 0 p :=
  C10_duplicate_code _ "A"
    (nonnegWeights_buildAdjacency _ (by
      intro e he w hwe
      rcases List.mem_cons.mp he with h1 | h1
      · subst h1
        have h2 : some ((10 : ℚ) / 1 + 0) = some w := hwe
        injection h2 with h3
        rw [← h3]
        norm_num
      · cases h1))
    (by decide) (by decide)

/-! ## Blocking an edge (C6): extending the override block list -/

/-- Adding an edge id to `overrides.blockedEdgeIds` (the runtime blocked
state read by `_edge_travel_time`). -/
def blockEdge (g : Graph) (e : String) : Graph :=
  { g with overrides := ⟨e :: g.overrides.blockedEdgeIds⟩ }

/-- A shared concrete three-node line graph: buildings `A`, `B`, `C` with
single entrances `a`, `b`, `c` and 10 m edges `a–b` (`e1`) and `b–c`
(`e2`) at walking speed 1 m/s. -/
def gWline : Graph :=
  ⟨[⟨"a", 0, 0⟩, ⟨"b", 1, 0⟩, ⟨"c", 2, 0⟩],
   [⟨"e1", "a", "b", 10, none, ⟨false, false, false, false⟩⟩,
    ⟨"e2", "b", "c", 10, none, ⟨false, false, false, false⟩⟩],
   [⟨"A", "Bldg A", ["a"]⟩, ⟨"B", "Bldg B", ["b"]⟩, ⟨"C", "Bldg C", ["c"]⟩],
   ⟨1, ⟨none, none, none⟩⟩, ⟨[]⟩⟩

theorem edgeTravelTime_cons_some {ed : Edge} {s : Settings} {e : String}
    {bl : List String} {w : ℚ}
    (h : edgeTravelTime ed s (e :: bl) = some w) : edgeTravelTime ed s bl = some w := by
  unfold edgeTravelTime at h ⊢
  by_cases hb : ed.flags.blocked = true
  · rw [if_pos hb] at h
    cases h
  · rw [if_neg hb] at h ⊢
    by_cases hm2 : ed.id ∈ e :: bl
    · rw [if_pos hm2] at h
      cases h
    · rw [if_neg hm2] at h
      rw [if_neg (fun hc => hm2 (List.mem_cons_of_mem _ hc))]
      exact h

theorem edgeTravelTime_cons_ne {ed : Edge} (s : Settings) {e : String} (bl : List String)
    (h : ed.id ≠ e) : edgeTravelTime ed s (e :: bl) = edgeTravelTime ed s bl := by
  unfold edgeTravelTime
  by_cases hb : ed.flags.blocked = true
  · rw [if_pos hb, if_pos hb]
  · rw [if_neg hb, if_neg hb]
    by_cases hm : ed.id ∈ bl
    · rw [if_pos (List.mem_cons_of_mem _ hm), if_pos hm]
    · rw [if_neg (fun hc => (List.mem_cons.mp hc).elim h hm), if_neg hm]

theorem addEdge_cons_ne (s : Settings) {e : String} (bl : List String) (acc : Adjacency)
    {ed : Edge} (h : ed.id ≠ e) : addEdge s (e :: bl) acc ed = addEdge s bl acc ed := by
  unfold addEdge
  rw [edgeTravelTime_cons_ne s bl h]

theorem addEdge_cons_self (s : Settings) (bl : List String) (acc : Adjacency)
    {ed : Edge} {e : String} (h : ed.id = e) : addEdge s (e :: bl) acc ed = acc := by
  have hnone : edgeTravelTime ed s (e :: bl) = none := by
    unfold edgeTravelTime
    by_cases hb : ed.flags.blocked = true
    · rw [if_pos hb]
    · rw [if_neg hb, if_pos (by rw [h]; exact List.mem_cons_self _ _)]
  unfold addEdge
  rw [hnone]

/-- Folding the edges with the extended block list is folding the surviving
edges with the original block list. -/
theorem fold_block_filter (s : Settings) (e : String) (bl : List String) :
    ∀ (edges : List Edge) (acc : Adjacency),
      edges.foldl (addEdge s (e :: bl)) acc =
        (edges.filter (fun ed => !(ed.id == e))).foldl (addEdge s bl) acc := by
  intro edges
  induction edges with
  | nil =>
    intro acc
    rfl
  | cons ed eds ih =>
    intro acc
    rw [List.foldl_cons, List.filter_cons]
    by_cases he : ed.id = e
    · have hp : (!(ed.id == e)) = false := by simp [he]
      rw [hp, if_neg Bool.false_ne_true, addEdge_cons_self s bl acc he]
      exact ih acc
    · have hp : (!(ed.id == e)) = true := by simp [he]
      rw [hp, if_pos rfl, List.foldl_cons, addEdge_cons_ne s bl acc he]
      exact ih (addEdge s bl acc ed)

/-- Blocking an edge by override builds the same adjacency as deleting the
edge from the graph. -/
theorem buildAdjacency_blockEdge (g : Graph) (e : String) :
    buildAdjacency (blockEdge g e) =
      buildAdjacency { g with edges := g.edges.filter (fun ed => !(ed.id == e)) } := by
  show g.edges.foldl (addEdge g.settings (e :: g.overrides.blockedEdgeIds))
      (g.nodes.foldl (fun adj node => dset adj node.id []) []) = _
  rw [fold_block_filter]
  rfl

/-- `addEdge` only ever appends to neighbor lists. -/
theorem mem_adjGet_addEdge_mono (s : Settings) (bl : List String) (acc : Adjacency)
    (ed : Edge) (u : String) (q : String × ℚ) (hq : q ∈ adjGet acc u) :
    q ∈ adjGet (addEdge s bl acc ed) u := by
  cases hc : edgeTravelTime ed s bl with
  | none =>
    simp only [addEdge, hc]
    exact hq
  | some t =>
    simp only [addEdge, hc]
    by_cases hif : ((dget acc ed.fromId).isSome && (dget acc ed.toId).isSome) = true
    · rw [if_pos hif]
      simp only [adjGet_dmodify_append, dget_dmodify_isSome]
      split_ifs with h1 h2 h2
      · exact List.mem_append_left _ (List.mem_append_left _ hq)
      · exact List.mem_append_left _ hq
      · exact List.mem_append_left _ hq
      · exact hq
    · rw [if_neg hif]
      exact hq

/-- Appending the same neighbor pair on both sides preserves a pointwise
adjacency inclusion (given equal key domains). -/
theorem mem_adjGet_pair_append {accB accO : Adjacency} (f t : String) (w : ℚ)
    (hdom : ∀ k, (dget accB k).isSome = (dget accO k).isSome)
    (hsub : ∀ u q, q ∈ adjGet accB u → q ∈ adjGet accO u) :
    ∀ u q,
      q ∈ adjGet (dmodify (dmodify accB f (fun l => l ++ [(t, w)])) t
        (fun l => l ++ [(f, w)])) u →
      q ∈ adjGet (dmodify (dmodify accO f (fun l => l ++ [(t, w)])) t
        (fun l => l ++ [(f, w)])) u := by
  intro u q hq
  simp only [adjGet_dmodify_append, dget_dmodify_isSome] at hq ⊢
  by_cases h1 : u = t ∧ ((dget accO t).isSome = true)
  · have h1B : u = t ∧ ((dget accB t).isSome = true) := ⟨h1.1, by rw [hdom]; exact h1.2⟩
    rw [if_pos h1B] at hq
    rw [if_pos h1]
    by_cases h2 : u = f ∧ ((dget accO f).isSome = true)
    · have h2B : u = f ∧ ((dget accB f).isSome = true) := ⟨h2.1, by rw [hdom]; exact h2.2⟩
      rw [if_pos h2B] at hq
      rw [if_pos h2]
      rcases List.mem_append.mp hq with h3 | h3
      · rcases List.mem_append.mp h3 with h4 | h4
        · exact List.mem_append_left _ (List.mem_append_left _ (hsub u q h4))
        · exact List.mem_append_left _ (List.mem_append_right _ h4)
      · exact List.mem_append_right _ h3
    · have h2B : ¬ (u = f ∧ ((dget accB f).isSome = true)) :=
        fun hc => h2 ⟨hc.1, by rw [← hdom]; exact hc.2⟩
      rw [if_neg h2B] at hq
      rw [if_neg h2]
      rcases List.mem_append.mp hq with h3 | h3
      · exact List.mem_append_left _ (hsub u q h3)
      · exact List.mem_append_right _ h3
  · have h1B : ¬ (u = t ∧ ((dget accB t).isSome = true)) :=
      fun hc => h1 ⟨hc.1, by rw [← hdom]; exact hc.2⟩
    rw [if_neg h1B] at hq
    rw [if_neg h1]
    by_cases h2 : u = f ∧ ((dget accO f).isSome = true)
    · have h2B : u = f ∧ ((dget accB f).isSome = true) := ⟨h2.1, by rw [hdom]; exact h2.2⟩
      rw [if_pos h2B] at hq
      rw [if_pos h2]
      rcases List.mem_append.mp hq with h3 | h3
      · exact List.mem_append_left _ (hsub u q h3)
      · exact List.mem_append_right _ h3
    · have h2B : ¬ (u = f ∧ ((dget accB f).isSome = true)) :=
        fun hc => h2 ⟨hc.1, by rw [← hdom]; exact hc.2⟩
      rw [if_neg h2B] at hq
      rw [if_neg h2]
      exact hsub u q hq

/-- Folding with the extended block list yields a pointwise sub-adjacency of
folding with the original block list. -/
theorem fold_block_subset (s : Settings) (e : String) (bl : List String) :
    ∀ (edges : List Edge) (accB accO : Adjacency),
      (∀ k, (dget accB k).isSome = (dget accO k).isSome) →
      (∀ u q, q ∈ adjGet accB u → q ∈ adjGet accO u) →
      ∀ u q, q ∈ adjGet (edges.foldl (addEdge s (e :: bl)) accB) u →
        q ∈ adjGet (edges.foldl (addEdge s bl) accO) u := by
  intro edges
  induction edges with
  | nil =>
    intro accB accO _ hsub
    exact hsub
  | cons ed eds ih =>
    intro accB accO hdom hsub
    rw [List.foldl_cons, List.foldl_cons]
    apply ih
    · intro k
      rw [dget_addEdge_isSome, dget_addEdge_isSome]
      exact hdom k
    · cases hcB : edgeTravelTime ed s (e :: bl) with
      | none =>
        intro u q hq
        simp only [addEdge, hcB] at hq
        exact mem_adjGet_addEdge_mono s bl accO ed u q (hsub u q hq)
      | some t =>
        have hcO : edgeTravelTime ed s bl = some t := edgeTravelTime_cons_some hcB
        intro u q hq
        simp only [addEdge, hcB] at hq
        simp only [addEdge, hcO]
        by_cases hif : ((dget accB ed.fromId).isSome && (dget accB ed.toId).isSome) = true
        · have hifO : ((dget accO ed.fromId).isSome && (dget accO ed.toId).isSome) = true := by
            rw [← hdom ed.fromId, ← hdom ed.toId]
            exact hif
          rw [if_pos hif] at hq
          rw [if_pos hifO]
          exact mem_adjGet_pair_append ed.fromId ed.toId t hdom hsub u q hq
        · have hifO : ¬ ((dget accO ed.fromId).isSome && (dget accO ed.toId).isSome) = true := by
            rw [← hdom ed.fromId, ← hdom ed.toId]
            exact hif
          rw [if_neg hif] at hq
          rw [if_neg hifO]
          exact hsub u q hq

/-- Pointwise adjacency inclusion of the blocked graph in the original. -/
theorem buildAdjacency_block_subset (g : Graph) (e : String) :
    ∀ u q, q ∈ adjGet (buildAdjacency (blockEdge g e)) u →
      q ∈ adjGet (buildAdjacency g) u := by
  intro u q hq
  exact fold_block_subset g.settings e g.overrides.blockedEdgeIds g.edges _ _
    (fun k => rfl) (fun u q h => h) u q hq

/-- Reachability transfers along a pointwise adjacency inclusion, with the
same cost. -/
theorem reach_mono {adjB adjO : Adjacency}
    (hsub : ∀ u q, q ∈ adjGet adjB u → q ∈ adjGet adjO u) {s v : String} {c : ℚ}
    (h : ReachC adjB s v c) : ReachC adjO s v c := by
  induction h with
  | refl => exact ReachC.refl
  | step h1 hm ih => exact ReachC.step ih (hsub _ _ hm)

/-- **C6.** Adding an edge id `e` to the override block list builds exactly
the adjacency of the graph with edge `e` deleted, so no computed shortest
path can traverse `e`: every path the blocked state returns is a walk of
that `e`-free adjacency; and shortest-path costs are monotonically
non-decreasing: whenever the blocked state returns a cost for a node pair,
the original graph returns a cost that is at most it. -/
theorem C6_block_edge (g : Graph) (e : String)
    (hw : ∀ ed ∈ g.edges, ∀ w,
      edgeTravelTime ed g.settings g.overrides.blockedEdgeIds = some w → 0 ≤ w) :
    (buildAdjacency (blockEdge g e) =
      buildAdjacency { g with edges := g.edges.filter (fun ed => !(ed.id == e)) }) ∧
    (∀ s t c' p, dijkstra s t (buildAdjacency (blockEdge g e)) = (some c', p) →
      PathCost (buildAdjacency
        { g with edges := g.edges.filter (fun ed => !(ed.id == e)) }) p c') ∧
    (∀ s t c', (dijkstra s t (buildAdjacency (blockEdge g e))).1 = some c' →
      ∃ c, (dijkstra s t (buildAdjacency g)).1 = some c ∧ c ≤ c') := by
  have heq := buildAdjacency_blockEdge g e
  have hwB : NonnegSteps (buildAdjacency (blockEdge g e)) :=
    nonnegSteps_of_nonnegWeights (nonnegWeights_buildAdjacency _
      (fun ed hed w hwe => hw ed hed w (edgeTravelTime_cons_some hwe)))
  have hwO : NonnegSteps (buildAdjacency g) :=
    nonnegSteps_of_nonnegWeights (nonnegWeights_buildAdjacency _ hw)
  refine ⟨heq, ?_, ?_⟩
  · intro s t c' p hB
    have hspec := (dijkstra_some_spec hwB hB).2.2.1
    rw [heq] at hspec
    exact hspec
  · intro s t c' hB
    obtain ⟨p, hp⟩ := dijkstra_fst_some hB
    have hreach := (dijkstra_some_spec hwB hp).2.1
    have hreachO : ReachC (buildAdjacency g) s t c' :=
      reach_mono (buildAdjacency_block_subset g e) hreach
    obtain ⟨dg, p2, heqd, hopt, _⟩ := dijkstra_reach_spec hwO ⟨c', hreachO⟩
    exact ⟨dg, by rw [heqd], hopt c' hreachO⟩

/-- Witness for C6: blocking `e2` of the line graph. -/
theorem C6_witness :
    (buildAdjacency (blockEdge gWline "e2") =
      buildAdjacency { gWline with
        edges := gWline.edges.filter (fun ed => !(ed.id == "e2")) }) ∧
    (∀ s t c' p, dijkstra s t (buildAdjacency (blockEdge gWline "e2")) = (some c', p) →
      PathCost (buildAdjacency { gWline with
        edges := gWline.edges.filter (fun ed => !(ed.id == "e2")) }) p c') ∧
    (∀ s t c', (dijkstra s t (buildAdjacency (blockEdge gWline "e2"))).1 = some c' →
      ∃ c, (dijkstra s t (buildAdjacency gWline)).1 = some c ∧ c ≤ c') :=
  C6_block_edge gWline "e2" (by
    intro ed hed w hwe
    rcases List.mem_cons.mp hed with h1 | h1
    · subst h1
      have h2 : some ((10 : ℚ) / 1 + 0) = some w := hwe
      injection h2 with h3
      rw [← h3]
      norm_num
    · rw [List.mem_singleton] at h1
      subst h1
      have h2 : some ((10 : ℚ) / 1 + 0) = some w := hwe
      injection h2 with h3
      rw [← h3]
      norm_num)

/-! ## Claim C9: the stitched path and the rendered polylines -/

/-- The coordinates a client renders for the whole route: the legs'
polylines in order (the spec's "combined polyline"; the response carries
only per-leg polylines). -/
def combinedPolyline (legs : List Leg) : List (ℚ × ℚ) :=
  (legs.map Leg.polyline).flatten

/-- Edge-level non-negativity for the line graph. -/
theorem gWline_nonneg : ∀ ed ∈ gWline.edges, ∀ w,
    edgeTravelTime ed gWline.settings gWline.overrides.blockedEdgeIds = some w →
      0 ≤ w := by
  intro ed hed w hwe
  rcases List.mem_cons.mp hed with h1 | h1
  · subst h1
    have h2 : some ((10 : ℚ) / 1 + 0) = some w := hwe
    injection h2 with h3
    rw [← h3]
    norm_num
  · rw [List.mem_singleton] at h1
    subst h1
    have h2 : some ((10 : ℚ) / 1 + 0) = some w := hwe
    injection h2 with h3
    rw [← h3]
    norm_num

/-- A non-`none` result of the entrance-pair loop is either the incoming
accumulator or one of the Dijkstra results examined. -/
theorem bestLeg_path_spec (adjacency : Adjacency) :
    ∀ (pairs : List (String × String)) (bt : Option ℚ) (bp : List String)
      (t : ℚ) (p : List String),
      bestLeg adjacency pairs bt bp = (some t, p) →
      (bt = some t ∧ bp = p) ∨ ∃ a b, dijkstra a b adjacency = (some t, p) := by
  intro pairs
  induction pairs with
  | nil =>
    intro bt bp t p h
    rw [bestLeg] at h
    rw [Prod.mk.injEq] at h
    exact Or.inl h
  | cons pr rest ih =>
    intro bt bp t p h
    obtain ⟨a, b⟩ := pr
    rw [bestLeg] at h
    cases hd : (dijkstra a b adjacency).1 with
    | none =>
      rw [hd] at h
      dsimp only at h
      exact ih _ _ _ _ h
    | some ts =>
      rw [hd] at h
      dsimp only at h
      by_cases hnil : (dijkstra a b adjacency).2 = []
      · rw [if_pos hnil] at h
        exact ih _ _ _ _ h
      · rw [if_neg hnil] at h
        cases bt with
        | none =>
          dsimp only at h
          rcases ih _ _ _ _ h with h1 | h1
          · refine Or.inr ⟨a, b, Prod.ext_iff.mpr ⟨?_, h1.2⟩⟩
            rw [hd]
            exact h1.1
          · exact Or.inr h1
        | some btv =>
          dsimp only at h
          by_cases hlt : ts < btv
          · rw [if_pos hlt] at h
            rcases ih _ _ _ _ h with h1 | h1
            · refine Or.inr ⟨a, b, Prod.ext_iff.mpr ⟨?_, h1.2⟩⟩
              rw [hd]
              exact h1.1
            · exact Or.inr h1
          · rw [if_neg hlt] at h
            exact ih _ _ _ _ h

/-- A successful building-to-building leg is one of the entrance-pair
Dijkstra results. -/
theorem spb_path_dijkstra {bById : List (String × Building)} {adjacency : Adjacency}
    {sc ec : String} {t : ℚ} {p : List String}
    (h : shortestPathBetweenBuildings bById sc ec adjacency = (some t, p)) :
    ∃ a b, dijkstra a b adjacency = (some t, p) := by
  rw [shortestPathBetweenBuildings] at h
  rcases bestLeg_path_spec adjacency _ none [] t p h with h1 | h1
  · cases h1.1
  · exact h1

/-- A successful leg's node path never repeats an adjacent node. -/
theorem spb_path_chain {bById : List (String × Building)} {adjacency : Adjacency}
    {sc ec : String} {t : ℚ} {p : List String} (hw : NonnegSteps adjacency)
    (h : shortestPathBetweenBuildings bById sc ec adjacency = (some t, p)) :
    p.Chain' (· ≠ ·) := by
  obtain ⟨a, b, hd⟩ := spb_path_dijkstra h
  exact (dijkstra_some_spec hw hd).2.2.2.2.2

/-- The stitching step preserves adjacent-distinctness of the combined
path: either the duplicate junction is elided, or the junction nodes
differ. -/
theorem chain_step {cp np : List String}
    (hcp : cp.Chain' (· ≠ ·)) (hnp : np.Chain' (· ≠ ·)) :
    (if cp ≠ [] ∧ np ≠ [] ∧ cp.getLast? = np.head? then cp ++ np.tail
     else cp ++ np).Chain' (· ≠ ·) := by
  by_cases hc : cp ≠ [] ∧ np ≠ [] ∧ cp.getLast? = np.head?
  · rw [if_pos hc]
    rw [List.chain'_append]
    obtain ⟨hcne, hnne, hlast⟩ := hc
    refine ⟨hcp, hnp.tail, ?_⟩
    intro x hx y hy
    have hxl : cp.getLast? = some x := hx
    have hyl : np.tail.head? = some y := hy
    cases np with
    | nil => exact absurd rfl hnne
    | cons n0 ntl =>
      have hx0 : x = n0 := by
        rw [hlast, List.head?_cons] at hxl
        injection hxl with h
        exact h.symm
      rw [List.tail_cons] at hyl
      cases ntl with
      | nil =>
        rw [List.head?_nil] at hyl
        cases hyl
      | cons m mt =>
        have hy0 : y = m := by
          rw [List.head?_cons] at hyl
          injection hyl with h
          exact h.symm
        subst hx0
        subst hy0
        exact (List.chain'_cons.mp hnp).1
  · rw [if_neg hc]
    rw [List.chain'_append]
    refine ⟨hcp, hnp, ?_⟩
    intro x hx y hy
    have hxl : cp.getLast? = some x := hx
    have hyl : np.head? = some y := hy
    have hcne : cp ≠ [] := by
      intro hnil
      rw [hnil, List.getLast?_nil] at hxl
      cases hxl
    have hnne : np ≠ [] := by
      intro hnil
      rw [hnil, List.head?_nil] at hyl
      cases hyl
    intro hxy
    subst hxy
    exact hc ⟨hcne, hnne, hxl.trans hyl.symm⟩

/-- The leg loop keeps the combined path free of adjacent repeats. -/
theorem legsLoop_chain (bById : List (String × Building)) (nById : List (String × Node))
    (adjacency : Adjacency) (hw : NonnegSteps adjacency) :
    ∀ (pairs : List (String × String)) (total : ℚ) (combined : List String)
      (legs legs2 : List Leg) (t : ℚ) (p : List String),
      combined.Chain' (· ≠ ·) →
      legsLoop bById nById adjacency pairs total combined legs =
        RouteResult.ok legs2 t p →
      p.Chain' (· ≠ ·) := by
  intro pairs
  induction pairs with
  | nil =>
    intro total combined legs legs2 t p hch h
    rw [legsLoop] at h
    rw [RouteResult.ok.injEq] at h
    rw [← h.2.2]
    exact hch
  | cons pr rest ih =>
    intro total combined legs legs2 t p hch h
    obtain ⟨sc, ec⟩ := pr
    cases hd : (shortestPathBetweenBuildings bById sc ec adjacency).1 with
    | none =>
      rw [legsLoop, hd] at h
      cases h
    | some t0 =>
      have hne : (shortestPathBetweenBuildings bById sc ec adjacency).2 ≠ [] := by
        intro hnil
        rw [spb_path_nil_iff, hd] at hnil
        cases hnil
      rw [legsLoop, hd] at h
      dsimp only at h
      rw [if_neg hne] at h
      have hspb : shortestPathBetweenBuildings bById sc ec adjacency =
          (some t0, (shortestPathBetweenBuildings bById sc ec adjacency).2) := by
        rw [← hd]
      have hnp := spb_path_chain hw hspb
      exact ih _ _ _ _ _ _ (chain_step hch hnp) h

/-- **C9 (amended).** In a successful route, whenever a leg's node path
starts at the node where the stitched path so far ended, the duplicate
junction node is elided, so the combined node path never repeats an
adjacent node. (The further claim that the combined polyline — the legs'
rendered polylines in order — never contains two consecutive identical
coordinates is false: each leg's polyline keeps its own copy of the shared
junction coordinate; see the counterexample.) -/
theorem C9_no_adjacent_repeat (g : Graph) (input : BuildingsInput)
    (legs : List Leg) (t : ℚ) (p : List String)
    (hw : NonnegWeights (buildAdjacency g))
    (h : computeRoute g input = RouteResult.ok legs t p) :
    p.Chain' (· ≠ ·) := by
  have hws := nonnegSteps_of_nonnegWeights hw
  cases input with
  | notAList =>
    rw [show computeRoute g BuildingsInput.notAList = RouteResult.invalidRequest
      from rfl] at h
    cases h
  | list codes =>
    rw [computeRoute] at h
    dsimp only at h
    by_cases hne : codes = []
    · rw [if_pos hne] at h
      cases h
    · rw [if_neg hne] at h
      by_cases hinv : codes.filter (fun code => (dget (buildingsById g) code).isNone) ≠ []
      · rw [if_pos hinv] at h
        cases h
      · rw [if_neg hinv] at h
        by_cases hlen : codes.length < 2
        · rw [if_pos hlen] at h
          cases h
        · rw [if_neg hlen] at h
          exact legsLoop_chain _ _ _ hws _ _ _ _ _ _ _ List.chain'_nil h

/-- Witness for the amended C9 on the line graph. -/
theorem C9_witness :
    ∃ legs t p, computeRoute gWline (BuildingsInput.list ["A", "B"]) =
        RouteResult.ok legs t p ∧ p.Chain' (· ≠ ·) := by
  have hw : NonnegWeights (buildAdjacency gWline) :=
    nonnegWeights_buildAdjacency _ gWline_nonneg
  have hws := nonnegSteps_of_nonnegWeights hw
  have hs : ((shortestPathBetweenBuildings (buildingsById gWline) "A" "B"
      (buildAdjacency gWline)).1).isSome :=
    spb_isSome_of_reach hws ⟨"a", by decide, "b", by decide, _,
      ReachC.step ReachC.refl (List.mem_cons_self _ _)⟩
  obtain ⟨legs, t, p, hres, -⟩ := computeRoute_ok_total gWline ["A", "B"]
    (by simp) (by decide) (by simp)
    (by
      intro pr hpr
      rw [show ["A", "B"].zip ["A", "B"].tail = [("A", "B")] from rfl] at hpr
      rw [List.mem_singleton] at hpr
      subst hpr
      exact hs)
  exact ⟨legs, t, p, hres, C9_no_adjacent_repeat gWline _ legs t p hw hres⟩

/-- With single-entrance endpoint buildings, the leg search is the one
Dijkstra run between the two entrances. -/
theorem spb_single {bById : List (String × Building)} {A B a b : String}
    {adjacency : Adjacency} {t : ℚ} {p : List String}
    (hA : ((dget bById A).map Building.entranceNodeIds).getD [] = [a])
    (hB : ((dget bById B).map Building.entranceNodeIds).getD [] = [b])
    (hd : dijkstra a b adjacency = (some t, p)) (hp : p ≠ []) :
    shortestPathBetweenBuildings bById A B adjacency = (some t, p) := by
  have hdf : (dijkstra a b adjacency).1 = some t := by rw [hd]
  have hds : (dijkstra a b adjacency).2 = p := by rw [hd]
  rw [shortestPathBetweenBuildings]
  rw [hA, hB]
  rw [show entrancePairs [a] [b] = [(a, b)] from rfl]
  simp only [bestLeg, hdf]
  rw [if_neg (by rw [hds]; exact hp)]
  simp only [bestLeg, hds]

/-- Unfolding the leg loop over exactly two connected legs. -/
theorem legsLoop_two (bById : List (String × Building)) (nById : List (String × Node))
    (adjacency : Adjacency) {A B C : String} {t1 t2 : ℚ} {p1 p2 : List String}
    (h1 : shortestPathBetweenBuildings bById A B adjacency = (some t1, p1))
    (hp1 : p1 ≠ [])
    (h2 : shortestPathBetweenBuildings bById B C adjacency = (some t2, p2))
    (hp2 : p2 ≠ []) :
    ∃ l1 l2 tt cp,
      legsLoop bById nById adjacency [(A, B), (B, C)] 0 [] [] =
        RouteResult.ok [l1, l2] tt cp ∧
      l1.polyline = p1.filterMap
        (fun node_id => (dget nById node_id).map (fun n => (n.x, n.y))) ∧
      l2.polyline = p2.filterMap
        (fun node_id => (dget nById node_id).map (fun n => (n.x, n.y))) := by
  have h1f : (shortestPathBetweenBuildings bById A B adjacency).1 = some t1 := by rw [h1]
  have h1s : (shortestPathBetweenBuildings bById A B adjacency).2 = p1 := by rw [h1]
  have h2f : (shortestPathBetweenBuildings bById B C adjacency).1 = some t2 := by rw [h2]
  have h2s : (shortestPathBetweenBuildings bById B C adjacency).2 = p2 := by rw [h2]
  rw [legsLoop, h1f]
  dsimp only
  rw [if_neg (by rw [h1s]; exact hp1)]
  rw [h1s]
  rw [legsLoop, h2f]
  dsimp only
  rw [if_neg (by rw [h2s]; exact hp2)]
  rw [h2s]
  rw [legsLoop]
  exact ⟨_, _, _, _, rfl, rfl, rfl⟩

/-- **C9, counterexample to the polyline half.** On the line graph, the
route `A → B → C` succeeds, but the legs' polylines in order contain the
junction entrance coordinate twice in a row: the first leg's polyline ends
at `b`'s coordinates and the second leg's polyline starts there again, so
the combined polyline does contain two consecutive identical
coordinates. -/
theorem C9_counterexample :
    ∃ legs t p, computeRoute gWline (BuildingsInput.list ["A", "B", "C"]) =
        RouteResult.ok legs t p ∧
      ¬ (combinedPolyline legs).Chain' (· ≠ ·) := by
  have hw : NonnegWeights (buildAdjacency gWline) :=
    nonnegWeights_buildAdjacency _ gWline_nonneg
  have hws := nonnegSteps_of_nonnegWeights hw
  obtain ⟨t1, p1, hd1, hopt1, hre1, hpc1, hh1, hl1, hch1⟩ :=
    dijkstra_reach_spec hws
      (⟨_, ReachC.step ReachC.refl (List.mem_cons_self _ _)⟩ :
        ∃ c, ReachC (buildAdjacency gWline) "a" "b" c)
  obtain ⟨t2, p2, hd2, hopt2, hre2, hpc2, hh2, hl2, hch2⟩ :=
    dijkstra_reach_spec hws
      (⟨_, ReachC.step ReachC.refl (List.Mem.tail _ (List.mem_cons_self _ _))⟩ :
        ∃ c, ReachC (buildAdjacency gWline) "b" "c" c)
  have hp1ne : p1 ≠ [] := by
    intro hnil
    rw [hnil, List.head?_nil] at hh1
    cases hh1
  have hp2ne : p2 ≠ [] := by
    intro hnil
    rw [hnil, List.head?_nil] at hh2
    cases hh2
  have hs1 : shortestPathBetweenBuildings (buildingsById gWline) "A" "B"
      (buildAdjacency gWline) = (some t1, p1) :=
    spb_single rfl rfl hd1 hp1ne
  have hs2 : shortestPathBetweenBuildings (buildingsById gWline) "B" "C"
      (buildAdjacency gWline) = (some t2, p2) :=
    spb_single rfl rfl hd2 hp2ne
  obtain ⟨l1, l2, tt, cp, hrun, hpoly1, hpoly2⟩ :=
    legsLoop_two (buildingsById gWline) (nodesById gWline) (buildAdjacency gWline)
      hs1 hp1ne hs2 hp2ne
  have hroute : computeRoute gWline (BuildingsInput.list ["A", "B", "C"]) =
      legsLoop (buildingsById gWline) (nodesById gWline) (buildAdjacency gWline)
        [("A", "B"), ("B", "C")] 0 [] [] := by
    rw [computeRoute]
    dsimp only
    rw [if_neg (by decide), if_neg (by decide), if_neg (by decide)]
    rfl
  refine ⟨[l1, l2], tt, cp, hroute.trans hrun, ?_⟩
  obtain ⟨q1, hq1⟩ := List.getLast?_eq_some_iff.mp hl1
  obtain ⟨q2, hq2⟩ : ∃ q2, p2 = "b" :: q2 := by
    cases p2 with
    | nil => exact absurd rfl hp2ne
    | cons x xs =>
      rw [List.head?_cons] at hh2
      injection hh2 with h
      exact ⟨xs, by rw [h]⟩
  have hply1 : l1.polyline = q1.filterMap
      (fun node_id => (dget (nodesById gWline) node_id).map (fun n => (n.x, n.y)))
      ++ [((1 : ℚ), (0 : ℚ))] := by
    rw [hpoly1, hq1, List.filterMap_append]
    rfl
  have hply2 : l2.polyline = ((1 : ℚ), (0 : ℚ)) :: q2.filterMap
      (fun node_id => (dget (nodesById gWline) node_id).map (fun n => (n.x, n.y))) := by
    rw [hpoly2, hq2]
    rfl
  intro hch
  rw [show combinedPolyline [l1, l2] = l1.polyline ++ (l2.polyline ++ []) from rfl] at hch
  rw [List.append_nil] at hch
  rw [hply1, hply2] at hch
  rw [List.append_assoc, List.singleton_append] at hch
  exact (List.chain'_cons.mp (List.chain'_append.mp hch).2.1).1 rfl

end Planner

